import Mathlib

/-!
# AWT (Agent WorkTrees) — verification of the task-lifecycle core

Shallow embedding of the concurrency-safe task lifecycle engine of the
`awt` repository: the naming/validation service (`internal/safety`,
`internal/idgen`), the atomic task-record store (`internal/task`), the
file-based lock manager (`internal/lock`), and the `task start` /
`task handoff` command pipelines (`internal/commands`).

Go strings are embedded as `List Char` (the Go code iterates over runes;
all byte sequences relevant here are ASCII, where runes and bytes
coincide). Go's `error`-or-`nil` validator results are embedded as
`Bool` (`true` = the source function returns `nil`). External effects
(git subprocesses, the filesystem, locks) are embedded as explicit
state / oracle records, and each command pipeline returns the ordered
list of effect actions it performed, so that ordering and locking
properties can be stated about the trace.
-/

set_option maxRecDepth 8192

abbrev Str := List Char

/-- Go `strings.Contains s pat` (`hasSub pat s`): some suffix of `s`
has `pat` as a prefix. -/
def hasSub (pat : Str) : Str → Bool
  | [] => pat.isEmpty
  | c :: rest => pat.isPrefixOf (c :: rest) || hasSub pat rest

/-- Go `strings.Contains`. -/
def strContains (s pat : Str) : Bool := hasSub pat s

/-- Go `strings.HasPrefix`. -/
def strHasPref (s pat : Str) : Bool := pat.isPrefixOf s

/-- Go `strings.HasSuffix`. -/
def strHasSuf (s pat : Str) : Bool := pat.isSuffixOf s

/-- Fuel-driven worker for Go `strings.ReplaceAll` (non-overlapping,
left to right). The fuel is the length of the subject string, which
bounds the number of steps since each step consumes at least one
character of the subject. -/
def replaceAllFuel (pat rep : Str) : Nat → Str → Str
  | 0, s => s
  | _ + 1, [] => []
  | fuel + 1, c :: rest =>
    if !pat.isEmpty && pat.isPrefixOf (c :: rest) then
      rep ++ replaceAllFuel pat rep fuel ((c :: rest).drop pat.length)
    else
      c :: replaceAllFuel pat rep fuel rest

/-- Go `strings.ReplaceAll s pat rep`. -/
def replaceAll (pat rep s : Str) : Str := replaceAllFuel pat rep s.length s

/-- Worker for Go `strings.Trim`: drop leading characters that belong
to the cutset. -/
def trimLeftChars (cut : Str) : Str → Str
  | [] => []
  | c :: rest => if c ∈ cut then trimLeftChars cut rest else c :: rest

/-- Go `strings.Trim s cut`: remove leading and trailing characters
belonging to the cutset `cut`. -/
def trimChars (cut s : Str) : Str :=
  (trimLeftChars cut ((trimLeftChars cut s).reverse)).reverse

namespace safety

/-- The forbidden substrings checked by `Validator.ValidateBranchName`
(`internal/safety`, `forbidden := [".." "~" "^" ":" "?" "*" "[" " "
"\t" "\n" "\\"]`). -/
def branchForbidden : List Str :=
  [['.', '.'], ['~'], ['^'], [':'], ['?'], ['*'], ['['], [' '],
   ['\t'], ['\n'], ['\\']]

/-- `Validator.ValidateBranchName` (internal/safety): `true` iff the Go
function returns `nil`.  The Go code is a chain of early-error returns;
a `nil` result means every single check passed, which is embedded as
the conjunction of the negated checks, in source order. -/
def ValidateBranchName (branch : Str) : Bool :=
  !branch.isEmpty &&
  !(strHasPref branch ['-']) &&
  !(strHasSuf branch ['.']) &&
  !(strHasSuf branch ['.', 'l', 'o', 'c', 'k']) &&
  !(branchForbidden.any (fun pat => strContains branch pat)) &&
  !(strContains branch ['@', '{']) &&
  !(branch == ['@']) &&
  branch.all (fun c => !(c.toNat < 32 || c.toNat == 127))

/-- Character class admitted by `Validator.ValidateAgentName`:
alphanumeric, dash, underscore. -/
def agentCharOK (c : Char) : Bool :=
  (97 ≤ c.toNat && c.toNat ≤ 122) ||
  (65 ≤ c.toNat && c.toNat ≤ 90) ||
  (48 ≤ c.toNat && c.toNat ≤ 57) ||
  c == '-' || c == '_'

/-- `Validator.ValidateAgentName` (internal/safety). -/
def ValidateAgentName (agent : Str) : Bool :=
  !agent.isEmpty && agent.length ≤ 50 && agent.all agentCharOK

/-- `Validator.ValidateTaskTitle` (internal/safety). -/
def ValidateTaskTitle (title : Str) : Bool :=
  !title.isEmpty && title.length ≤ 200 &&
  !(title.any (fun c => c == '\n' || c == '\r' || c == '\t'))

end safety

namespace idgen

/-- ASCII lower-casing as performed by Go `strings.ToLower` on the
ASCII characters that can occur in a validated agent name. -/
def goToLower (c : Char) : Char :=
  if 65 ≤ c.toNat ∧ c.toNat ≤ 90 then Char.ofNat (c.toNat + 32) else c

/-- The sequences removed by `idgen.SanitizeName`, in source order. -/
def sanitizeRemoved : List Str :=
  [['~'], ['^'], [':'], ['?'], ['*'], ['['], ['\\'], ['.', '.'],
   ['$'], [Char.ofNat 96], ['&'], ['|'], [';'], ['<'], ['>'],
   ['('], [')'], ['{'], ['}'], ['@', '{'], ['/', '/']]

/-- `idgen.SanitizeName`: replace spaces with hyphens, remove the
forbidden sequences, lower-case, trim leading/trailing `-` and `/`. -/
def SanitizeName (name : Str) : Str :=
  let n1 := replaceAll [' '] ['-'] name
  let n2 := sanitizeRemoved.foldl (fun s pat => replaceAll pat [] s) n1
  let n3 := n2.map goToLower
  trimChars ['-', '/'] n3

/-- `idgen.GenerateBranchName prefix agent id =
"<prefix>/<SanitizeName agent>/<id>"`. -/
def GenerateBranchName (pref agent id : Str) : Str :=
  pref ++ '/' :: SanitizeName agent ++ '/' :: id

/-- The sequences rejected by `idgen.ValidateTaskID`
(the general validator at internal/idgen, cited by the claims). -/
def idInvalidChars : List Str :=
  [['/'], ['\\'], [':'], ['*'], ['?'], ['"'], ['<'], ['>'], ['|'],
   ['~'], ['^'], ['['], ['.', '.'],
   ['$'], [Char.ofNat 96], ['&'], [';'], ['('], [')'], ['{'], ['}'],
   ['\n'], ['\r'], ['\t'],
   ['@', '{'], ['/', '/']]

/-- `idgen.ValidateTaskID`: non-empty, at most 255 characters, none of
the unsafe sequences, and no leading/trailing dot or space. -/
def ValidateTaskID (id : Str) : Bool :=
  !id.isEmpty &&
  id.length ≤ 255 &&
  idInvalidChars.all (fun pat => !(strContains id pat)) &&
  !(strHasPref id ['.']) && !(strHasSuf id ['.']) &&
  !(strHasPref id [' ']) && !(strHasSuf id [' '])

end idgen

/-- Character class of the output of `idgen.SanitizeName` on a
validated agent name: lower-case letter, digit, dash, or underscore. -/
def goodLower (c : Char) : Prop :=
  (97 ≤ c.toNat ∧ c.toNat ≤ 122) ∨ (48 ≤ c.toNat ∧ c.toNat ≤ 57) ∨
  c.toNat = 45 ∨ c.toNat = 95

instance (c : Char) : Decidable (goodLower c) := by
  unfold goodLower; infer_instance

namespace task

/-- Task states (`internal/task`, `State` constants). The Go type is a
string; the record validator only accepts the five enum values, so the
embedded store keeps the state as a string as well. -/
def StateNew : Str := "NEW".data

def StateActive : Str := "ACTIVE".data

def StateHandoffReady : Str := "HANDOFF_READY".data

def StateMerged : Str := "MERGED".data

def StateAbandoned : Str := "ABANDONED".data

/-- `task.Task` (internal/task): the persisted task record.
`CreatedAt` is embedded as a numeric timestamp. -/
structure Task where
  id : Str
  agent : Str
  title : Str
  branch : Str
  base : Str
  createdAt : Nat
  state : Str
  worktreePath : Str
  lastCommit : Str
  prURL : Str
  deriving DecidableEq, Repr

/-- `Task.Validate` (internal/task): required fields non-empty and the
state one of the five enum values. -/
def Task.Validate (t : Task) : Bool :=
  !t.id.isEmpty && !t.agent.isEmpty && !t.title.isEmpty &&
  !t.branch.isEmpty && !t.base.isEmpty && !t.state.isEmpty &&
  (t.state == StateNew || t.state == StateActive || t.state == StateHandoffReady ||
   t.state == StateMerged || t.state == StateAbandoned)

/-- The task-store directory as a flat path-to-contents map (the store
is a directory of `<id>.json` files; `Save` additionally uses sibling
`<id>.json.tmp` files). -/
def FS := List (Str × Str)

def fsGet (fs : FS) (k : Str) : Option Str :=
  (List.find? (fun p => p.1 == k) fs).map (·.2)

def fsSet (fs : FS) (k v : Str) : FS :=
  (k, v) :: List.filter (fun p => !(p.1 == k)) fs

def fsDel (fs : FS) (k : Str) : FS :=
  List.filter (fun p => !(p.1 == k)) fs

/-- `TaskStore.taskPath`: `<tasksDir>/<id>.json`. -/
def taskPath (dir id : Str) : Str := dir ++ '/' :: id ++ ".json".data

/-- The sibling temporary path used by `TaskStore.Save`:
`<taskPath>.tmp`. -/
def tempPath (dir id : Str) : Str := taskPath dir id ++ ".tmp".data

/-- `TaskStore.Save` run to completion: marshal, write the sibling
temp file, then atomically rename it onto the final path. -/
def Save (dir : Str) (fs : FS) (t : Task) (marshal : Task → Str) : FS :=
  let data := marshal t
  let fs1 := fsSet fs (tempPath dir t.id) data
  fsSet (fsDel fs1 (tempPath dir t.id)) (taskPath dir t.id) data

/-- `TaskStore.Save` interrupted during the temp-file write after `k`
bytes: the temp file holds an arbitrary prefix of the serialized data
and the final path has not been touched (the rename has not happened). -/
def SaveInterrupted (dir : Str) (fs : FS) (t : Task) (marshal : Task → Str) (k : Nat) : FS :=
  fsSet fs (tempPath dir t.id) ((marshal t).take k)

inductive LoadResult where
  | ok (t : Task)
  | notFound
  | badJSON
  | badTask
  deriving DecidableEq, Repr

/-- `TaskStore.Load` (internal/task): read the final path; a missing
file is `notFound`, undecodable contents are the distinct unmarshal
error, and a decoded record must pass `Task.Validate`. -/
def Load (dir : Str) (unmarshal : Str → Option Task) (fs : FS) (id : Str) : LoadResult :=
  match fsGet fs (taskPath dir id) with
  | none => .notFound
  | some data =>
    match unmarshal data with
    | none => .badJSON
    | some t => if t.Validate then .ok t else .badTask

end task

namespace lock

/-- Filesystem state seen by the lock manager (`internal/lock`).
`files` are the names in the locks directory; `flockHeld` are the
paths on which some live process currently holds the advisory flock;
`fallbackOwned` are the `.exclusive` token paths whose creating
process is alive (this field records ownership for the specification
only — the Go code has no way to consult it, which is exactly what
claim C7 is about); `flockSupported` tells whether the filesystem
supports advisory locks. -/
structure LockFS where
  files : List Str
  flockHeld : List Str
  fallbackOwned : List Str
  flockSupported : Bool
  deriving DecidableEq, Repr

def insertFile (files : List Str) (f : Str) : List Str :=
  if f ∈ files then files else f :: files

def removeFile (files : List Str) (f : Str) : List Str :=
  List.filter (fun g => !(g == f)) files

structure Lock where
  path : Str
  deriving DecidableEq, Repr

/-- `filepath.Ext`: the suffix starting at the final dot (inclusive);
empty when the name contains no dot. -/
def fileExt (s : Str) : Str :=
  if s.any (fun c => c == '.') then
    '.' :: (List.takeWhile (fun c => !(c == '.')) s.reverse).reverse
  else []

def exclusiveSuffix : Str := ".exclusive".data

def lockSuffix : Str := ".lock".data

/-- `tryAcquireLock` (internal/lock): open/create the lock file and
attempt a non-blocking exclusive flock; `EWOULDBLOCK` (the path is in
`flockHeld`) is failure.  When the filesystem does not support flock,
fall back to atomically creating the `<path>.exclusive` token file,
whose prior existence is failure.  Success returns the held lock and
the updated filesystem. -/
def tryAcquireLock (fs : LockFS) (path : Str) : Option (Lock × LockFS) :=
  let fs1 : LockFS := { fs with files := insertFile fs.files path }
  if fs.flockSupported then
    if path ∈ fs.flockHeld then none
    else some ({ path := path }, fs1)
  else
    let excl := path ++ exclusiveSuffix
    if excl ∈ fs1.files then none
    else some ({ path := excl }, { fs1 with files := insertFile fs1.files excl })

/-- `Lock.Release` (internal/lock): best-effort funlock and close; for
fallback `.exclusive` locks, additionally delete the token file. -/
def Release (fs : LockFS) (l : Lock) : LockFS :=
  if fileExt l.path == exclusiveSuffix then
    { fs with files := removeFile fs.files l.path }
  else fs

/-- One iteration of the `LockManager.Cleanup` loop: try to acquire
the directory entry; on success release the lock again and — only when
the entry is a primary `.lock` file — remove the entry. Entries that
fail to acquire are left alone. -/
def cleanupStep (fs : LockFS) (name : Str) : LockFS :=
  match tryAcquireLock fs name with
  | some (l, fs1) =>
    let fs2 := Release fs1 l
    if fileExt name == lockSuffix then { fs2 with files := removeFile fs2.files name }
    else fs2
  | none => fs

/-- `LockManager.Cleanup` (internal/lock): read the directory once and
process every entry. -/
def Cleanup (fs : LockFS) : LockFS := fs.files.foldl cleanupStep fs

end lock

/-- A locks directory holding a single fallback `.exclusive` token
file whose creating process is alive, on a flock-supporting
filesystem: the concrete state for claim C7's counterexample. -/
def tokenFS : lock.LockFS :=
  { files := ["t.lock.exclusive".data], flockHeld := [],
    fallbackOwned := ["t.lock.exclusive".data], flockSupported := true }

namespace lock

/-- Program counter of one process running `LockManager.AcquireLock`
on a fixed lock name: `trying` is the retry loop, `holding` means the
process returned with the `Lock` handle, `released` means it has since
called `Lock.Release`, `timedOut` means `AcquireLock` returned the
timeout error. -/
inductive PState where
  | trying
  | holding
  | released
  | timedOut
  deriving DecidableEq, Repr

/-- Multi-process state for one lock name: the program counter of each
process and the flock state of the shared lock file (`holder = some p`
iff process `p` currently holds the exclusive flock). -/
structure Sys where
  pcs : Nat → PState
  holder : Option Nat

/-- Interleaving events.  `tryAcq p` is one iteration of process `p`'s
`AcquireLock` retry loop (a single atomic `tryAcquireLock` call, which
the OS serializes); `release p` is `Lock.Release`; `timeout p` is the
deadline expiring, after which `AcquireLock` returns the timeout
error. -/
inductive Event where
  | tryAcq (p : Nat)
  | release (p : Nat)
  | timeout (p : Nat)
  deriving DecidableEq, Repr

/-- One interleaving step of the lock protocol, mirroring
`AcquireLock`'s loop body and `Lock.Release`: a `tryAcquireLock` call
succeeds exactly when the flock is free, atomically making the caller
the holder; when the flock is held the caller stays in the retry loop;
`Release` drops the flock. -/
def step (s : Sys) (e : Event) : Sys :=
  match e with
  | .tryAcq p =>
    match s.pcs p with
    | .trying =>
      match s.holder with
      | none => { pcs := fun q => if q = p then .holding else s.pcs q, holder := some p }
      | some _ => s
    | _ => s
  | .release p =>
    match s.pcs p with
    | .holding =>
      { pcs := fun q => if q = p then .released else s.pcs q,
        holder := if s.holder = some p then none else s.holder }
    | _ => s
  | .timeout p =>
    match s.pcs p with
    | .trying => { s with pcs := fun q => if q = p then .timedOut else s.pcs q }
    | _ => s

/-- Run a whole interleaving. -/
def run (s : Sys) (es : List Event) : Sys := es.foldl step s

/-- The inductive invariant: whoever is in the `holding` state is the
flock holder recorded in the lock file. -/
def Inv (s : Sys) : Prop := ∀ p, s.pcs p = .holding → s.holder = some p

end lock

namespace commands

/-- An absolute, cleaned filesystem path as a list of components (the
result of `filepath.Abs`). -/
abbrev Path := List Str

/-- Strip the common leading components of two paths (the core of
`filepath.Rel` on absolute cleaned paths). -/
def dropCommon : Path → Path → (Path × Path)
  | [], ts => ([], ts)
  | b :: bs, [] => (b :: bs, [])
  | b :: bs, t :: ts => if b = t then dropCommon bs ts else (b :: bs, t :: ts)

/-- `filepath.Rel base targ` for absolute cleaned paths: one `..`
component per remaining base component, then the remaining target
components; `.` (here: the empty component list stands for `.`) when
the paths are equal. -/
def relPath (base targ : Path) : Path :=
  let p := dropCommon base targ
  List.replicate p.1.length ['.', '.'] ++ p.2

/-- `hasParentDir` (internal/commands/status.go): the relative path
contains a `..` component. -/
def hasParentDir (p : Path) : Bool := p.any (fun c => c == ['.', '.'])

/-- The `isInside` computation of `runTaskHandoff` step 6
(internal/commands, `rel, err := filepath.Rel(wtPathAbs, cwdAbs);
isInside := err == nil && !filepath.IsAbs(rel) && rel != ".." &&
!hasParentDir(rel)`): for absolute cleaned inputs `Rel` never fails
and never returns an absolute path, leaving the two `..` checks. -/
def isInsideWorktree (wt cwd : Path) : Bool :=
  let rel := relPath wt cwd
  !(rel == [['.', '.']]) && !(hasParentDir rel)

/-- Go `strings.Split s "\n"`. -/
def splitOnNl : Str → List Str
  | [] => [[]]
  | c :: rest =>
    if c = '\n' then [] :: splitOnNl rest
    else
      match splitOnNl rest with
      | l :: ls => (c :: l) :: ls
      | [] => [[c]]

/-- Go `strings.TrimSpace` (ASCII whitespace). -/
def trimSpaceGo (s : Str) : Str :=
  trimChars [' ', '\t', '\n', '\x0b', '\x0c', '\r'] s

/-- `extractPRURL` (internal/commands): the first output line that
starts with `http`, trimmed. -/
def extractPRURL (out : Str) : Str :=
  match (splitOnNl out).find? (fun line => strHasPref line "http".data) with
  | some line => trimSpaceGo line
  | none => []

/-- The flags of `awt task handoff` that the orchestration consults. -/
structure HandoffOpts where
  push : Bool
  createPR : Bool
  keepWorktree : Bool
  forceRemove : Bool
  deriving DecidableEq, Repr

/-- Captured output of one git subprocess call. -/
structure GitResult where
  exitCode : Nat
  stdout : Str
  stderr : Str
  deriving DecidableEq, Repr

/-- Deterministic oracle for every external effect one handoff run can
perform: the results of the git calls, tool availability, the process
and repository paths, and whether lock acquisition, worktree removal
and the final record save succeed. -/
structure HandoffEnv where
  rebaseResult : GitResult
  pushOk : Bool
  ghAvailable : Bool
  glabAvailable : Bool
  prResult : GitResult
  detachOk : Bool
  wtPath : Path
  cwd : Path
  repoRoot : Path
  lockOk : Bool
  removeOk : Bool
  saveOk : Bool
  deriving DecidableEq, Repr

/-- The error outcomes `runTaskHandoff` can surface (from
`internal/errors` plus the inline `fmt.Errorf` cases). -/
inductive HErr where
  | syncConflicts
  | pushRejected
  | prRequiresPush
  | toolMissing
  | detachFailed
  | lockTimeout
  | removeFailed
  | saveFailed
  deriving DecidableEq, Repr

/-- Observable effect actions of a handoff run, in execution order. -/
inductive Action where
  | gitStatus
  | gitRebase (base : Str)
  | gitPush (branch : Str)
  | prCreate
  | gitDetach
  | chdir (p : Path)
  | acquireGlobal
  | acquireTask (id : Str)
  | worktreeRemove (p : Path)
  | storeSave (t : task.Task)
  deriving DecidableEq, Repr

deriving instance DecidableEq for Except

/-- The `--json` result record of `awt task handoff`. -/
structure HandoffResult where
  taskID : Str
  branch : Str
  pushed : Bool
  prURL : Str
  worktreeKept : Bool
  deriving DecidableEq, Repr

/-- Result of one handoff run: the command outcome, the task record
stored under the task's id after the run (`storeAfter = t` whenever
the final save did not complete, by claim C2's atomicity), and the
ordered effect trace. -/
structure HandoffOutcome where
  result : Except HErr HandoffResult
  storeAfter : task.Task
  trace : List Action
  deriving DecidableEq, Repr

/-- Step 4 of `runTaskHandoff` (create PR): `--create-pr` requires
`--push`; if neither `gh` nor `glab` is found the run aborts with the
tool-missing error; a failing PR command only warns (no URL); a
succeeding one yields the URL extracted from its stdout. -/
def prStep (opts : HandoffOpts) (env : HandoffEnv) : Except HErr Str × List Action :=
  if !opts.createPR then (.ok [], [])
  else if !opts.push then (.error .prRequiresPush, [])
  else if !env.ghAvailable && !env.glabAvailable then (.error .toolMissing, [])
  else if env.prResult.exitCode != 0 then (.ok [], [.prCreate])
  else (.ok (extractPRURL env.prResult.stdout), [.prCreate])

/-- Step 6 of `runTaskHandoff` (worktree retirement): skipped under
`--keep-worktree`; skipped (reported kept) when the current directory
is inside the worktree and no `--force-remove` is given; with the
override the process first changes its working directory to the
repository root; the removal itself runs under the global lock. -/
def retireWorktree (opts : HandoffOpts) (env : HandoffEnv) : Except HErr Bool × List Action :=
  if opts.keepWorktree then (.ok true, [])
  else
    let inside := isInsideWorktree env.wtPath env.cwd
    if inside && !opts.forceRemove then (.ok true, [])
    else
      let pre : List Action := if inside && opts.forceRemove then [.chdir env.repoRoot] else []
      if !env.lockOk then (.error .lockTimeout, pre ++ [.acquireGlobal])
      else if !env.removeOk then
        (.error .removeFailed, pre ++ [.acquireGlobal, .worktreeRemove env.wtPath])
      else (.ok false, pre ++ [.acquireGlobal, .worktreeRemove env.wtPath])

/-- `runTaskHandoff` (internal/commands) after the task record has
been loaded: status check (warn only), sync with the base branch
(conflict aborts), optional push (rejection aborts), optional PR
creation (`prStep`), detach, worktree retirement (`retireWorktree`),
and the single final save of the updated record with
`state = HANDOFF_READY`. -/
def runTaskHandoff (t : task.Task) (opts : HandoffOpts) (env : HandoffEnv) : HandoffOutcome :=
  let tr0 : List Action := [.gitStatus, .gitRebase t.base]
  if (env.rebaseResult.exitCode != 0) &&
      (strContains env.rebaseResult.stderr "conflict".data ||
       strContains env.rebaseResult.stdout "conflict".data) then
    ⟨.error .syncConflicts, t, tr0⟩
  else if opts.push && !env.pushOk then
    ⟨.error .pushRejected, t, tr0 ++ [.gitPush t.branch]⟩
  else
    let trPush := tr0 ++ (if opts.push then [.gitPush t.branch] else [])
    match (prStep opts env).1 with
    | .error e => ⟨.error e, t, trPush ++ (prStep opts env).2⟩
    | .ok prURL =>
      let t1 := if prURL.isEmpty then t else { t with prURL := prURL }
      let trDet := trPush ++ (prStep opts env).2 ++ [.gitDetach]
      if !env.detachOk then ⟨.error .detachFailed, t, trDet⟩
      else
        match (retireWorktree opts env).1 with
        | .error e => ⟨.error e, t, trDet ++ (retireWorktree opts env).2⟩
        | .ok kept =>
          let t2 := { t1 with state := task.StateHandoffReady }
          if !env.saveOk then
            ⟨.error .saveFailed, t, trDet ++ (retireWorktree opts env).2 ++ [.storeSave t2]⟩
          else
            ⟨.ok { taskID := t.id, branch := t.branch, pushed := opts.push,
                   prURL := prURL, worktreeKept := kept },
             t2, trDet ++ (retireWorktree opts env).2 ++ [.storeSave t2]⟩

/-- The task record an action saves, if any (selector used to state
where store writes sit inside a trace). -/
def saveOf : Action → Option task.Task
  | .storeSave t' => some t'
  | _ => none

/-- The store writes of a trace, in order. -/
def savesIn (tr : List Action) : List task.Task := tr.filterMap saveOf

/-- A concrete ACTIVE task record, as `task start` creates it, used to
evaluate the handoff pipeline on concrete inputs. -/
def sampleTask : task.Task :=
  { id := "t1".data, agent := "claude".data, title := "demo".data,
    branch := "awt/claude/t1".data, base := "origin/main".data,
    createdAt := 0, state := task.StateActive,
    worktreePath := "/r/.awt/wt/t1".data, lastCommit := [], prURL := [] }

/-- A git call that exited 0 with no output. -/
def gitOK : GitResult := { exitCode := 0, stdout := [], stderr := [] }

/-- Handoff with all flags off. -/
def optsPlain : HandoffOpts :=
  { push := false, createPR := false, keepWorktree := false, forceRemove := false }

/-- Handoff with `--push --create-pr`. -/
def optsPushPR : HandoffOpts :=
  { push := true, createPR := true, keepWorktree := false, forceRemove := false }

/-- An environment in which every external step succeeds: the rebase is
clean, the push is accepted, `gh` is installed and the PR command
prints a URL, and the current directory sits at the repository root,
outside the worktree. -/
def envAllOk : HandoffEnv :=
  { rebaseResult := gitOK, pushOk := true, ghAvailable := true, glabAvailable := false,
    prResult := { exitCode := 0, stdout := "https://example.com/pr/1\n".data, stderr := [] },
    detachOk := true, wtPath := [['r'], ['w']], cwd := [['r']], repoRoot := [['r']],
    lockOk := true, removeOk := true, saveOk := true }

/-- Like `envAllOk` but the PR command exits nonzero. -/
def envPRFail : HandoffEnv :=
  { envAllOk with prResult := { exitCode := 1, stdout := [], stderr := [] } }

/-- Like `envAllOk` but neither `gh` nor `glab` is on the PATH. -/
def envNoTool : HandoffEnv :=
  { envAllOk with ghAvailable := false, glabAvailable := false }

/-- Like `envAllOk` but the final record save fails. -/
def envSaveFail : HandoffEnv := { envAllOk with saveOk := false }

/-- Like `envAllOk` but the current directory is a subdirectory of the
worktree being retired. -/
def envInside : HandoffEnv := { envAllOk with cwd := [['r'], ['w'], ['s']] }

/-- The flags of `awt task start` that the pipeline consults
(`StartOptions`; `WorktreeDir` keeps its default `.awt/wt`). -/
structure StartOpts where
  agent : Str
  title : Str
  base : Str
  id : Str
  branchPref : Str
  deriving DecidableEq, Repr

/-- Deterministic oracle for the external effects of one `task start`
run: repository discovery, the global lock, id generation, the
worktree-path filesystem check, the repository's existing branches
(`BranchExists` resolves `refs/heads/<name>` exactly), checked-out
status, and whether worktree creation, the record save and the
compensating removal succeed. -/
structure StartEnv where
  repoOk : Bool
  root : Str
  lockOk : Bool
  genOk : Bool
  genId : Str
  pathOk : Bool
  branches : List Str
  checkedOut : Bool
  worktreeAddOk : Bool
  now : Nat
  saveOk : Bool
  removeOk : Bool
  deriving DecidableEq, Repr

/-- The error outcomes `runTaskStart` can surface, plus the
`CASE_ONLY_COLLISION` code that `internal/errors` defines
(`ExitCaseOnlyCollision = 61`). -/
inductive SErr where
  | invalidAgentName
  | invalidTaskTitle
  | repoNotFound
  | lockTimeout
  | genFailed
  | invalidTaskID
  | invalidBranchName
  | invalidWorktreePath
  | branchAlreadyExists
  | branchCheckedOutElsewhere
  | worktreeAddFailed
  | saveFailed
  | caseOnlyCollision
  deriving DecidableEq, Repr

/-- Result of one `task start` run: the command outcome (`StartResult`
triple id / branch / worktree path on success), the repository's
branches afterwards, the worktrees this run created and left on disk,
and the record stored under the task's id after the run. -/
structure StartOutcome where
  result : Except SErr (Str × Str × Str)
  branchesAfter : List Str
  worktreesAfter : List Str
  record : Option task.Task
  deriving DecidableEq, Repr

/-- `filepath.Join(r.WorkTreeRoot, ".awt/wt", taskID)`. -/
def startWorktreePath (root id : Str) : Str := root ++ "/.awt/wt/".data ++ id

/-- `runTaskStart` (internal/commands/start.go): validate the agent
name and title, discover the repository, take the global lock,
generate or validate the task id, derive and validate the branch name,
validate the worktree path, check that the branch neither exists (an
exact ref lookup) nor is checked out elsewhere, create the worktree
(which also creates the branch), and save the ACTIVE record — on a
save failure the just-created worktree is removed again (best effort,
the removal's own error is ignored) and the run fails. -/
def runTaskStart (opts : StartOpts) (env : StartEnv) : StartOutcome :=
  if !safety.ValidateAgentName opts.agent then
    ⟨.error .invalidAgentName, env.branches, [], none⟩
  else if !safety.ValidateTaskTitle opts.title then
    ⟨.error .invalidTaskTitle, env.branches, [], none⟩
  else if !env.repoOk then
    ⟨.error .repoNotFound, env.branches, [], none⟩
  else if !env.lockOk then
    ⟨.error .lockTimeout, env.branches, [], none⟩
  else
    match (if opts.id.isEmpty then
             (if env.genOk then Except.ok env.genId else Except.error SErr.genFailed)
           else if !idgen.ValidateTaskID opts.id then Except.error SErr.invalidTaskID
           else Except.ok opts.id) with
    | .error e => ⟨.error e, env.branches, [], none⟩
    | .ok taskID =>
      let branchName := idgen.GenerateBranchName opts.branchPref opts.agent taskID
      if !safety.ValidateBranchName branchName then
        ⟨.error .invalidBranchName, env.branches, [], none⟩
      else
        let worktreePath := startWorktreePath env.root taskID
        if !env.pathOk then
          ⟨.error .invalidWorktreePath, env.branches, [], none⟩
        else if env.branches.contains branchName then
          ⟨.error .branchAlreadyExists, env.branches, [], none⟩
        else if env.checkedOut then
          ⟨.error .branchCheckedOutElsewhere, env.branches, [], none⟩
        else if !env.worktreeAddOk then
          ⟨.error .worktreeAddFailed, env.branches, [], none⟩
        else
          let t : task.Task :=
            { id := taskID, agent := opts.agent, title := opts.title,
              branch := branchName, base := opts.base, createdAt := env.now,
              state := task.StateActive, worktreePath := worktreePath,
              lastCommit := [], prURL := [] }
          if !env.saveOk then
            ⟨.error .saveFailed, env.branches ++ [branchName],
              if env.removeOk then [] else [worktreePath], none⟩
          else
            ⟨.ok (taskID, branchName, worktreePath), env.branches ++ [branchName],
              [worktreePath], some t⟩

/-- Flags of a `task start` run that supplies its own id. -/
def startOptsCase : StartOpts :=
  { agent := "claude".data, title := "Demo".data, base := "origin/main".data,
    id := "Feature-X".data, branchPref := "awt".data }

/-- A repository in which the branch `awt/claude/feature-x` already
exists and every external step of `task start` succeeds. -/
def startEnvCase : StartEnv :=
  { repoOk := true, root := "/r".data, lockOk := true, genOk := true, genId := [],
    pathOk := true, branches := ["awt/claude/feature-x".data], checkedOut := false,
    worktreeAddOk := true, now := 0, saveOk := true, removeOk := true }

/-- A repository in which every step of `task start` up to worktree
creation succeeds, but the record save fails and the compensating
worktree removal — whose error `runTaskStart` ignores — fails too. -/
def startEnvDoubleFail : StartEnv :=
  { startEnvCase with branches := [], saveOk := false, removeOk := false }

end commands

theorem prefOf_nil (l : Str) : List.isPrefixOf ([] : Str) l = true := by
  cases l <;> rfl

theorem prefOf_cons_nil (c : Char) (p : Str) : List.isPrefixOf (c :: p) ([] : Str) = false := rfl

theorem prefOf_cons_cons (c x : Char) (p l : Str) :
    List.isPrefixOf (c :: p) (x :: l) = ((c == x) && List.isPrefixOf p l) := rfl

/-- A one-character pattern occurs as a substring iff the character
occurs in the string. -/
theorem hasSub_single {c : Char} : ∀ {l : Str}, hasSub [c] l = true ↔ c ∈ l := by
  intro l
  induction l with
  | nil => simp [hasSub]
  | cons x xs ih =>
    show ([c].isPrefixOf (x :: xs) || hasSub [c] xs) = true ↔ c ∈ x :: xs
    rw [prefOf_cons_cons, prefOf_nil]
    simp [ih]

theorem hasSub_single_false {c : Char} {l : Str} (h : c ∉ l) : hasSub [c] l = false := by
  cases hh : hasSub [c] l
  · rfl
  · exact absurd (hasSub_single.mp hh) h

/-- A two-character pattern cannot occur if its first character does
not occur. -/
theorem hasSub_pair_false_left {a b : Char} : ∀ {l : Str}, a ∉ l → hasSub [a, b] l = false := by
  intro l
  induction l with
  | nil => intro _; rfl
  | cons x xs ih =>
    intro h
    simp only [List.mem_cons, not_or] at h
    have hax : (a == x) = false := beq_eq_false_iff_ne.mpr h.1
    simp [hasSub, prefOf_cons_cons, hax, ih h.2]

/-- Splitting a two-character substring occurrence across an append:
if the pattern occurs in neither part and cannot straddle the border,
it does not occur in the concatenation. -/
theorem hasSub_pair_append_false {a b : Char} :
    ∀ {xs ys : Str}, hasSub [a, b] xs = false → hasSub [a, b] ys = false →
    (xs.getLast? = some a → ys.head? ≠ some b) →
    hasSub [a, b] (xs ++ ys) = false := by
  intro xs
  induction xs with
  | nil => intro ys _ hy _; simpa using hy
  | cons x xs ih =>
    intro ys hx hy hj
    have hx' : List.isPrefixOf [a, b] (x :: xs) = false ∧ hasSub [a, b] xs = false := by
      have := hx
      simp only [hasSub, Bool.or_eq_false_iff] at this
      exact this
    have htail : hasSub [a, b] (xs ++ ys) = false := by
      refine ih hx'.2 hy ?_
      intro hlast
      refine hj ?_
      cases xs with
      | nil => simp at hlast
      | cons z zs => rw [List.getLast?_cons_cons]; exact hlast
    have hhead : List.isPrefixOf [a, b] (x :: (xs ++ ys)) = false := by
      cases xs with
      | cons z zs =>
        have h1 := hx'.1
        rw [prefOf_cons_cons, prefOf_cons_cons, prefOf_nil] at h1
        rw [prefOf_cons_cons, List.cons_append, prefOf_cons_cons, prefOf_nil]
        simpa using h1
      | nil =>
        by_cases hax : a = x
        · subst hax
          have hb := hj (by simp)
          cases ys with
          | nil => simp [prefOf_cons_cons, prefOf_cons_nil]
          | cons y ys' =>
            have hby : (b == y) = false := by
              refine beq_eq_false_iff_ne.mpr ?_
              intro hh
              exact hb (by simp [hh])
            simp [prefOf_cons_cons, hby]
        · have h2 : (a == x) = false := beq_eq_false_iff_ne.mpr hax
          simp [prefOf_cons_cons, h2]
    have : hasSub [a, b] (x :: (xs ++ ys))
        = (List.isPrefixOf [a, b] (x :: (xs ++ ys)) || hasSub [a, b] (xs ++ ys)) := by
      simp [hasSub]
    rw [List.cons_append, this, hhead, htail]
    rfl

theorem prefOf_length_le {p : Str} : ∀ {l : Str}, p.isPrefixOf l = true → p.length ≤ l.length := by
  induction p with
  | nil => intro l _; simp
  | cons c p ih =>
    intro l h
    cases l with
    | nil => simp [prefOf_cons_nil] at h
    | cons x xs =>
      rw [prefOf_cons_cons] at h
      simp only [Bool.and_eq_true] at h
      simpa using ih h.2

/-- If a short pattern is a Boolean prefix of `xs ++ ys`, it is a
prefix of `xs`. -/
theorem prefOf_append_short {p : Str} :
    ∀ {xs ys : Str}, p.length ≤ xs.length → p.isPrefixOf (xs ++ ys) = true →
    p.isPrefixOf xs = true := by
  induction p with
  | nil => intro xs ys _ _; exact prefOf_nil xs
  | cons c p ih =>
    intro xs ys hl h
    cases xs with
    | nil => simp at hl
    | cons x xs' =>
      rw [List.cons_append, prefOf_cons_cons] at h
      rw [prefOf_cons_cons]
      simp only [Bool.and_eq_true] at h ⊢
      exact ⟨h.1, ih (by simpa using hl) h.2⟩

/-- If a long pattern is a Boolean prefix of `xs ++ ys`, then `xs` is a
prefix of the pattern and the remainder of the pattern is a prefix of
`ys`. -/
theorem prefOf_append_long {p xs ys : Str} (hl : xs.length ≤ p.length)
    (h : p.isPrefixOf (xs ++ ys) = true) :
    xs.isPrefixOf p = true ∧ (p.drop xs.length).isPrefixOf ys = true := by
  induction xs generalizing p with
  | nil => simpa [prefOf_nil] using h
  | cons x xs' ih =>
    cases p with
    | nil => simp at hl
    | cons c p' =>
      rw [List.cons_append, prefOf_cons_cons] at h
      simp only [Bool.and_eq_true] at h
      have h3 := @ih p' (by simpa using hl) h.2
      refine ⟨?_, ?_⟩
      · rw [prefOf_cons_cons]
        simp only [Bool.and_eq_true]
        exact ⟨beq_iff_eq.mpr (beq_iff_eq.mp h.1).symm, h3.1⟩
      · simpa using h3.2

theorem mem_of_getLastQ {l : Str} {c : Char} (h : l.getLast? = some c) : c ∈ l := by
  induction l with
  | nil => simp at h
  | cons x xs ih =>
    cases xs with
    | nil => simp_all
    | cons y ys =>
      rw [List.getLast?_cons_cons] at h
      exact List.mem_cons_of_mem _ (ih h)

theorem trimLeftChars_subset {cut : Str} : ∀ {l : Str} {c : Char},
    c ∈ trimLeftChars cut l → c ∈ l := by
  intro l
  induction l with
  | nil => intro c h; simp [trimLeftChars] at h
  | cons x xs ih =>
    intro c h
    simp only [trimLeftChars] at h
    split at h
    · exact List.mem_cons_of_mem _ (ih h)
    · exact h

theorem trimChars_subset {cut l : Str} {c : Char} (h : c ∈ trimChars cut l) : c ∈ l := by
  simp only [trimChars, List.mem_reverse] at h
  have h1 := trimLeftChars_subset h
  rw [List.mem_reverse] at h1
  exact trimLeftChars_subset h1

/-- `strings.ReplaceAll` is the identity when the pattern does not
occur in the subject. -/
theorem replaceAllFuel_noop {pat rep : Str} :
    ∀ (fuel : Nat) {s : Str}, hasSub pat s = false → replaceAllFuel pat rep fuel s = s := by
  intro fuel
  induction fuel with
  | zero => intro s _; rfl
  | succ n ih =>
    intro s h
    cases s with
    | nil => rfl
    | cons c rest =>
      simp only [hasSub, Bool.or_eq_false_iff] at h
      have hc : (!pat.isEmpty && List.isPrefixOf pat (c :: rest)) = false := by
        simp [h.1]
      simp [replaceAllFuel, hc, ih h.2]

theorem replaceAll_noop {pat rep s : Str} (h : hasSub pat s = false) :
    replaceAll pat rep s = s :=
  replaceAllFuel_noop _ h

/-- Kernel-evaluable form of `Char.ofNat`/`Char.toNat` round trip for
code points below the surrogate range. -/
theorem charOfNat_toNat {n : Nat} (h : n < 55296) : (Char.ofNat n).toNat = n := by
  simp [Char.ofNat, Nat.isValidChar, h, Char.toNat, Char.ofNatAux,
        UInt32.toNat, UInt32.ofNatCore, BitVec.toNat_ofNatLt]

theorem goToLower_good {c : Char} (h : safety.agentCharOK c = true) :
    goodLower (idgen.goToLower c) := by
  simp only [safety.agentCharOK, Bool.or_eq_true, Bool.and_eq_true,
    decide_eq_true_eq, beq_iff_eq] at h
  rcases h with (((h | h) | h) | h) | h
  · have heq : idgen.goToLower c = c := by
      rw [idgen.goToLower, if_neg (by omega)]
    rw [heq]; exact Or.inl h
  · have hup : (idgen.goToLower c).toNat = c.toNat + 32 := by
      rw [idgen.goToLower, if_pos (by omega)]
      exact charOfNat_toNat (by omega)
    exact Or.inl (by omega)
  · have heq : idgen.goToLower c = c := by
      rw [idgen.goToLower, if_neg (by omega)]
    rw [heq]; exact Or.inr (Or.inl h)
  · subst h; exact Or.inr (Or.inr (Or.inl (by decide)))
  · subst h; exact Or.inr (Or.inr (Or.inr (by decide)))

theorem foldl_replace_noop : ∀ {pats : List Str} {s : Str},
    (∀ pat ∈ pats, hasSub pat s = false) →
    pats.foldl (fun s pat => replaceAll pat [] s) s = s := by
  intro pats
  induction pats with
  | nil => intro s _; rfl
  | cons p ps ih =>
    intro s h
    have h0 : replaceAll p [] s = s := replaceAll_noop (h p (by simp))
    rw [List.foldl_cons, h0]
    exact ih (fun q hq => h q (by simp [hq]))

/-- Every character of `SanitizeName agent` for a validated agent name
is a lower-case letter, digit, dash, or underscore. -/
theorem sanitize_chars {agent : Str} (h : safety.ValidateAgentName agent = true) :
    ∀ c ∈ idgen.SanitizeName agent, goodLower c := by
  have h' := h
  simp only [safety.ValidateAgentName, Bool.and_eq_true, List.all_eq_true] at h'
  obtain ⟨⟨-, -⟩, hall⟩ := h'
  have hnm : ∀ x : Char, safety.agentCharOK x = false → x ∉ agent := by
    intro x hx hmem
    rw [hall x hmem] at hx
    exact absurd hx (by simp)
  have h1 : replaceAll [' '] ['-'] agent = agent :=
    replaceAll_noop (hasSub_single_false (hnm ' ' (by decide)))
  have h2 : idgen.sanitizeRemoved.foldl (fun s pat => replaceAll pat [] s) agent = agent := by
    refine foldl_replace_noop ?_
    intro pat hpat
    simp only [idgen.sanitizeRemoved, List.mem_cons, List.not_mem_nil, or_false] at hpat
    rcases hpat with rfl|rfl|rfl|rfl|rfl|rfl|rfl|rfl|rfl|rfl|rfl|rfl|rfl|rfl|rfl|rfl|rfl|rfl|rfl|rfl|rfl
    all_goals first
      | exact hasSub_single_false (hnm _ (by decide))
      | exact hasSub_pair_false_left (hnm _ (by decide))
  intro c hc
  simp only [idgen.SanitizeName, h1, h2] at hc
  have h3 := trimChars_subset hc
  obtain ⟨c0, hc0, rfl⟩ := List.mem_map.mp h3
  exact goToLower_good (hall c0 hc0)

/-- Core acceptance lemma for the naming round trip: with the fixed
prefix `awt`, a validated agent name, and a validated task id that in
addition contains no space, no control/DEL character, and does not end
in `.lock`, the branch name derived by `GenerateBranchName` passes
`ValidateBranchName`. -/
theorem derivedBranchOK (agent id : Str)
    (hag : safety.ValidateAgentName agent = true)
    (hid : idgen.ValidateTaskID id = true)
    (hsp : ' ' ∉ id)
    (hctl : ∀ c ∈ id, 32 ≤ c.toNat ∧ c.toNat ≠ 127)
    (hlock : strHasSuf id ['.', 'l', 'o', 'c', 'k'] = false) :
    safety.ValidateBranchName (idgen.GenerateBranchName ['a', 'w', 't'] agent id) = true := by
  have hid' := hid
  simp only [idgen.ValidateTaskID, Bool.and_eq_true, Bool.not_eq_true',
    List.all_eq_true] at hid'
  obtain ⟨⟨⟨⟨⟨⟨hne, hlen⟩, hinv⟩, hpd⟩, hsd⟩, hps⟩, hss⟩ := hid'
  have idne : id ≠ [] := by
    cases id
    · simp at hne
    · simp
  have hidnc : ∀ (c : Char), [c] ∈ idgen.idInvalidChars → c ∉ id := by
    intro c hcmem hmem
    have h0 := hinv [c] hcmem
    rw [strContains] at h0
    exact absurd (hasSub_single.mpr hmem) (by rw [h0]; simp)
  have hsag : ∀ c ∈ idgen.SanitizeName agent, goodLower c := sanitize_chars hag
  have hwd : idgen.GenerateBranchName ['a', 'w', 't'] agent id
      = ['a', 'w', 't', '/'] ++ (idgen.SanitizeName agent ++ '/' :: id) := by
    show ['a', 'w', 't'] ++ '/' :: idgen.SanitizeName agent ++ '/' :: id
        = ['a', 'w', 't', '/'] ++ (idgen.SanitizeName agent ++ '/' :: id)
    generalize idgen.SanitizeName agent = S
    simp
  have hmemW : ∀ c : Char, c ∉ (['a', 'w', 't', '/'] : Str) → ¬ goodLower c → c ∉ id →
      c ∉ idgen.GenerateBranchName ['a', 'w', 't'] agent id := by
    intro c hA hG hI hmem
    rw [hwd] at hmem
    rcases List.mem_append.mp hmem with h | h
    · exact hA h
    rcases List.mem_append.mp h with h | h
    · exact hG (hsag c h)
    rcases List.mem_cons.mp h with h | h
    · subst h; exact hA (by decide)
    · exact hI h
  obtain ⟨c0, r0, hid0⟩ : ∃ c0 r0, id.reverse = c0 :: r0 := by
    cases hidrev : id.reverse with
    | nil =>
      exfalso
      apply idne
      have := congrArg List.reverse hidrev
      simpa using this
    | cons a b => exact ⟨a, b, rfl⟩
  have hwrev : (idgen.GenerateBranchName ['a', 'w', 't'] agent id).reverse
      = id.reverse ++ ('/' :: ((idgen.SanitizeName agent).reverse ++ ['/', 't', 'w', 'a'])) := by
    rw [hwd, List.reverse_append, List.reverse_append, List.reverse_cons]
    simp [List.append_assoc]
  simp only [safety.ValidateBranchName, Bool.and_eq_true]
  refine ⟨⟨⟨⟨⟨⟨⟨?_, ?_⟩, ?_⟩, ?_⟩, ?_⟩, ?_⟩, ?_⟩, ?_⟩
  · -- non-empty
    rw [hwd]; rfl
  · -- does not start with '-'
    rw [hwd]; rfl
  · -- does not end with '.'
    have hsd' : List.isPrefixOf ['.'] id.reverse = false := hsd
    rw [hid0, prefOf_cons_cons, prefOf_nil] at hsd'
    have hne0 : ('.' == c0) = false := by simpa using hsd'
    have hgoal : strHasSuf (idgen.GenerateBranchName ['a', 'w', 't'] agent id) ['.']
        = List.isPrefixOf ['.'] (idgen.GenerateBranchName ['a', 'w', 't'] agent id).reverse := rfl
    rw [hgoal, hwrev, hid0, List.cons_append, prefOf_cons_cons, hne0]
    rfl
  · -- does not end with ".lock"
    have hgoal : strHasSuf (idgen.GenerateBranchName ['a', 'w', 't'] agent id)
        ['.', 'l', 'o', 'c', 'k']
        = List.isPrefixOf ['k', 'c', 'o', 'l', '.']
            (idgen.GenerateBranchName ['a', 'w', 't'] agent id).reverse := rfl
    rw [hgoal, hwrev]
    cases htrue : List.isPrefixOf ['k', 'c', 'o', 'l', '.']
        (id.reverse ++ ('/' :: ((idgen.SanitizeName agent).reverse ++ ['/', 't', 'w', 'a'])))
    · rfl
    · exfalso
      rcases le_or_lt 5 id.length with h5 | h5
      · have hshort := @prefOf_append_short ['k', 'c', 'o', 'l', '.'] id.reverse _
          (by simpa using h5) htrue
        have hlock' : List.isPrefixOf ['k', 'c', 'o', 'l', '.'] id.reverse = false := hlock
        rw [hlock'] at hshort
        exact absurd hshort (by simp)
      · have hlong := @prefOf_append_long ['k', 'c', 'o', 'l', '.'] id.reverse _
          (by simp; omega) htrue
        have hdrop := hlong.2
        rw [List.length_reverse] at hdrop
        have h1le : 1 ≤ id.length := List.length_pos.mpr idne
        have hc4 : id.length = 1 ∨ id.length = 2 ∨ id.length = 3 ∨ id.length = 4 := by omega
        rcases hc4 with h | h | h | h <;> rw [h] at hdrop <;>
          simp [prefOf_cons_cons] at hdrop
  · -- none of the forbidden substrings
    simp only [Bool.not_eq_true', List.any_eq_false]
    intro pat hpat
    have hdotid : hasSub ['.', '.'] id = false := by
      have h0 := hinv ['.', '.'] (by decide)
      rwa [strContains] at h0
    have hdotsag : '.' ∉ idgen.SanitizeName agent := fun hm =>
      absurd (hsag '.' hm) (by decide)
    simp only [safety.branchForbidden, List.mem_cons, List.not_mem_nil, or_false] at hpat
    rcases hpat with rfl | rfl | rfl | rfl | rfl | rfl | rfl | rfl | rfl | rfl | rfl
    · -- ".."
      have hfact : strContains (idgen.GenerateBranchName ['a', 'w', 't'] agent id)
          ['.', '.'] = false := by
        rw [strContains, hwd]
        refine hasSub_pair_append_false (by decide) ?_ ?_
        · refine hasSub_pair_append_false (hasSub_pair_false_left hdotsag) ?_ ?_
          · show (List.isPrefixOf ['.', '.'] ('/' :: id) || hasSub ['.', '.'] id) = false
            rw [prefOf_cons_cons, hdotid]
            rw [show ('.' == '/') = false from by decide]
            rfl
          · intro hlast
            exact absurd (mem_of_getLastQ hlast) hdotsag
        · intro hlast
          exact absurd hlast (by decide)
      simp [hfact]
    · have hfact := hasSub_single_false (hmemW '~' (by decide) (by decide) (hidnc '~' (by decide)))
      simp [strContains, hfact]
    · have hfact := hasSub_single_false (hmemW '^' (by decide) (by decide) (hidnc '^' (by decide)))
      simp [strContains, hfact]
    · have hfact := hasSub_single_false (hmemW ':' (by decide) (by decide) (hidnc ':' (by decide)))
      simp [strContains, hfact]
    · have hfact := hasSub_single_false (hmemW '?' (by decide) (by decide) (hidnc '?' (by decide)))
      simp [strContains, hfact]
    · have hfact := hasSub_single_false (hmemW '*' (by decide) (by decide) (hidnc '*' (by decide)))
      simp [strContains, hfact]
    · have hfact := hasSub_single_false (hmemW '[' (by decide) (by decide) (hidnc '[' (by decide)))
      simp [strContains, hfact]
    · have hfact := hasSub_single_false (hmemW ' ' (by decide) (by decide) hsp)
      simp [strContains, hfact]
    · have hfact := hasSub_single_false (hmemW '\t' (by decide) (by decide) (hidnc '\t' (by decide)))
      simp [strContains, hfact]
    · have hfact := hasSub_single_false (hmemW '\n' (by decide) (by decide) (hidnc '\n' (by decide)))
      simp [strContains, hfact]
    · have hfact := hasSub_single_false (hmemW '\\' (by decide) (by decide) (hidnc '\\' (by decide)))
      simp [strContains, hfact]
  · -- no "@{"
    have hatid : hasSub ['@', '{'] id = false := by
      have h0 := hinv ['@', '{'] (by decide)
      rwa [strContains] at h0
    have hatsag : '@' ∉ idgen.SanitizeName agent := fun hm =>
      absurd (hsag '@' hm) (by decide)
    simp only [Bool.not_eq_true']
    rw [strContains, hwd]
    refine hasSub_pair_append_false (by decide) ?_ ?_
    · refine hasSub_pair_append_false (hasSub_pair_false_left hatsag) ?_ ?_
      · show (List.isPrefixOf ['@', '{'] ('/' :: id) || hasSub ['@', '{'] id) = false
        rw [prefOf_cons_cons, hatid]
        rw [show ('@' == '/') = false from by decide]
        rfl
      · intro hlast
        exact absurd (mem_of_getLastQ hlast) hatsag
    · intro hlast
      exact absurd hlast (by decide)
  · -- not the bare name "@"
    rw [hwd]; rfl
  · -- no control characters
    rw [hwd, List.all_eq_true]
    intro c hmem
    have hok : 32 ≤ c.toNat ∧ c.toNat ≠ 127 := by
      rcases List.mem_append.mp hmem with h | h
      · have h4 : c = 'a' ∨ c = 'w' ∨ c = 't' ∨ c = '/' := by simpa using h
        rcases h4 with rfl | rfl | rfl | rfl
        all_goals exact ⟨by decide, by decide⟩
      · rcases List.mem_append.mp h with h | h
        · have := hsag c h
          rcases this with h | h | h | h <;> omega
        · rcases List.mem_cons.mp h with h | h
          · subst h; exact ⟨by decide, by decide⟩
          · exact hctl c h
    have h2 : (c.toNat == 127) = false := by
      simpa using hok.2
    have h1 : decide (c.toNat < 32) = false := by
      simp only [decide_eq_false_iff_not, Nat.not_lt]
      exact hok.1
    show (!(decide (c.toNat < 32) || (c.toNat == 127))) = true
    rw [h1, h2]
    rfl

/-- Rejection half of the naming round trip: any branch name containing
one of the spec's forbidden byte sequences (`..`, `~`, `^`, `:`, `?`,
`*`, `[`, whitespace, `@{`, or a control character) is rejected by
`ValidateBranchName`. -/
theorem branchRejectsForbidden (b : Str)
    (h : (∃ pat ∈ safety.branchForbidden, strContains b pat = true) ∨
         strContains b ['@', '{'] = true ∨
         (∃ c ∈ b, c.toNat < 32 ∨ c.toNat = 127)) :
    safety.ValidateBranchName b = false := by
  cases hv : safety.ValidateBranchName b
  · rfl
  · exfalso
    have hv' := hv
    simp only [safety.ValidateBranchName, Bool.and_eq_true] at hv'
    obtain ⟨⟨⟨⟨⟨⟨⟨-, -⟩, -⟩, -⟩, hforb⟩, hat⟩, -⟩, hctl⟩ := hv'
    rcases h with ⟨pat, hmem, hcon⟩ | hcon | ⟨c, hmem, hc⟩
    · have hany : safety.branchForbidden.any (fun pat => strContains b pat) = true :=
        List.any_eq_true.mpr ⟨pat, hmem, hcon⟩
      rw [hany] at hforb
      exact absurd hforb (by simp)
    · rw [hcon] at hat
      exact absurd hat (by simp)
    · have hcc := (List.all_eq_true.mp hctl) c hmem
      have h2 : (decide (c.toNat < 32) || (c.toNat == 127)) = false := by
        simpa using hcc
      simp only [Bool.or_eq_false_iff, decide_eq_false_iff_not, beq_eq_false_iff_ne] at h2
      rcases hc with hc | hc
      · exact h2.1 hc
      · exact h2.2 hc

/-- Claim C6 (amended). Naming validation round-trip. (i) Every branch
name that contains one of the forbidden byte sequences of the spec's
naming rules (`..`, `~`, `^`, `:`, `?`, `*`, `[`, whitespace, `@{`, or
a control character) is rejected by `ValidateBranchName`. (ii) For the
fixed prefix `awt` used by `task start`, every agent accepted by
`ValidateAgentName`, and every id accepted by `ValidateTaskID` that in
addition contains no space and no control/DEL character and does not
end in `.lock`, the branch name derived by `GenerateBranchName` is
accepted by `ValidateBranchName`.  (The extra conditions on the id and
the fixed prefix are forced: `ValidateTaskID` accepts ids such as
`"a b"` whose derived branch names `ValidateBranchName` rejects — see
the counterexample.) -/
theorem C6_naming_round_trip :
    (∀ b : Str,
        ((∃ pat ∈ safety.branchForbidden, strContains b pat = true) ∨
         strContains b ['@', '{'] = true ∨
         (∃ c ∈ b, c.toNat < 32 ∨ c.toNat = 127)) →
        safety.ValidateBranchName b = false) ∧
    (∀ agent id : Str,
        safety.ValidateAgentName agent = true →
        idgen.ValidateTaskID id = true →
        ' ' ∉ id →
        (∀ c ∈ id, 32 ≤ c.toNat ∧ c.toNat ≠ 127) →
        strHasSuf id ['.', 'l', 'o', 'c', 'k'] = false →
        safety.ValidateBranchName (idgen.GenerateBranchName ['a', 'w', 't'] agent id) = true) :=
  ⟨branchRejectsForbidden, derivedBranchOK⟩

/-- Claim C6, counterexample to the round trip as stated: the id
`"a b"` is accepted by `ValidateTaskID` and the agent `"claude"` by
`ValidateAgentName`, yet the branch name derived from them is rejected
by `ValidateBranchName` (it contains a space). -/
theorem C6_naming_round_trip_cex :
    idgen.ValidateTaskID "a b".data = true ∧
    safety.ValidateAgentName "claude".data = true ∧
    safety.ValidateBranchName
      (idgen.GenerateBranchName "awt".data "claude".data "a b".data) = false := by
  exact ⟨by decide, by decide, by decide⟩

/-- Witness for claim C6: both halves of the round-trip theorem applied
at concrete inputs. -/
theorem C6_naming_round_trip_witness :
    safety.ValidateBranchName "feature..bad".data = false ∧
    safety.ValidateBranchName
      (idgen.GenerateBranchName ['a', 'w', 't'] "claude".data
        "20250110-120000-abc123".data) = true := by
  constructor
  · exact C6_naming_round_trip.1 _ (Or.inl ⟨['.', '.'], by decide, by decide⟩)
  · exact C6_naming_round_trip.2 _ _ (by decide) (by decide) (by decide) (by decide) (by decide)

namespace task

theorem find_filter_ne {k k' : Str} (hne : k' ≠ k) : ∀ (fs : FS),
    List.find? (fun p => p.1 == k') (List.filter (fun p => !(p.1 == k)) fs)
      = List.find? (fun p => p.1 == k') fs := by
  intro fs
  induction fs with
  | nil => rfl
  | cons p ps ih =>
    have h3 : (k == k') = false := by
      simp only [beq_eq_false_iff_ne]
      exact fun hh => hne hh.symm
    by_cases hpk : p.1 = k
    · have h2 : (p.1 == k') = false := by
        simp only [beq_eq_false_iff_ne]
        rw [hpk]
        exact fun hh => hne hh.symm
      simp [List.filter_cons, List.find?_cons, hpk, h2, h3, ih]
    · by_cases hpk' : p.1 = k'
      · simp [List.filter_cons, List.find?_cons, hpk, hpk', h3, hne, ih]
      · simp [List.filter_cons, List.find?_cons, hpk, hpk', h3, hne, ih]

theorem fsGet_set_ne {fs : FS} {k k' v : Str} (hne : k' ≠ k) :
    fsGet (fsSet fs k v) k' = fsGet fs k' := by
  have h2 : (k == k') = false := by
    simp only [beq_eq_false_iff_ne]
    exact fun hh => hne hh.symm
  simp [fsGet, fsSet, List.find?_cons, h2, find_filter_ne hne]

theorem tempPath_ne_taskPath (dir id : Str) : taskPath dir id ≠ tempPath dir id := by
  intro h
  have hlen := congrArg List.length h
  simp only [taskPath, tempPath, List.length_append, List.length_cons] at hlen
  omega

end task

/-- Claim C2. Atomic persistence of the task store: if `Save` is
interrupted at any byte offset `k` of the sibling temp-file write, a
subsequent `Load` of the task's id returns exactly what it returned
before the `Save` began — the previously stored version of the record,
or not-found if there was none, never a partially written or corrupt
record.  Stated for every store directory, filesystem content, task,
byte offset, and every serialization pair, since `Load` never reads
the temp path. -/
theorem C2_atomic_save (dir : Str) (fs : task.FS) (t : task.Task)
    (marshal : task.Task → Str) (unmarshal : Str → Option task.Task) (k : Nat) :
    task.Load dir unmarshal (task.SaveInterrupted dir fs t marshal k) t.id
      = task.Load dir unmarshal fs t.id := by
  simp only [task.Load, task.SaveInterrupted]
  rw [task.fsGet_set_ne (task.tempPath_ne_taskPath dir t.id)]

namespace lock

theorem cleanupStep_preserve (st : LockFS) (e : Str) :
    (cleanupStep st e).flockSupported = st.flockSupported ∧
    (cleanupStep st e).flockHeld = st.flockHeld ∧
    (cleanupStep st e).fallbackOwned = st.fallbackOwned := by
  unfold cleanupStep tryAcquireLock Release
  split
  · next l fs1 heq =>
    have hf : fs1.flockSupported = st.flockSupported ∧ fs1.flockHeld = st.flockHeld ∧
        fs1.fallbackOwned = st.fallbackOwned := by
      split at heq
      · split at heq
        · exact absurd heq (by simp)
        · simp only [Option.some.injEq, Prod.mk.injEq] at heq
          obtain ⟨-, h2⟩ := heq
          subst h2
          simp_all
      · dsimp only at heq
        split at heq
        · exact absurd heq (by simp)
        · simp only [Option.some.injEq, Prod.mk.injEq] at heq
          obtain ⟨-, h2⟩ := heq
          subst h2
          simp
    repeat' split
    all_goals simp [hf.1, hf.2.1, hf.2.2]
  · simp

theorem mem_insertFile {files : List Str} {f g : Str} :
    g ∈ insertFile files f ↔ g ∈ files ∨ g = f := by
  unfold insertFile
  split
  · constructor
    · exact Or.inl
    · rintro (h | rfl)
      · exact h
      · assumption
  · simp [List.mem_cons, or_comm]

theorem mem_removeFile {files : List Str} {f g : Str} :
    g ∈ removeFile files f ↔ g ∈ files ∧ g ≠ f := by
  simp [removeFile, List.mem_filter]

theorem insertFile_of_mem {files : List Str} {f : Str} (h : f ∈ files) :
    insertFile files f = files := by
  unfold insertFile
  exact if_pos h

theorem removeFile_of_not_mem {files : List Str} {f : Str} (h : f ∉ files) :
    removeFile files f = files := by
  unfold removeFile
  rw [List.filter_eq_self]
  intro a ha
  simp only [Bool.not_eq_true', beq_eq_false_iff_ne]
  intro hf
  exact h (hf ▸ ha)

theorem fileExt_append_excl (e : Str) : fileExt (e ++ exclusiveSuffix) = exclusiveSuffix := by
  unfold fileExt
  rw [if_pos]
  · rw [List.reverse_append]
    rw [show exclusiveSuffix.reverse
        = 'e' :: 'v' :: 'i' :: 's' :: 'u' :: 'l' :: 'c' :: 'x' :: 'e' :: '.' :: [] from by decide]
    simp only [List.cons_append, List.takeWhile_cons]
    norm_num
    decide
  · rw [List.any_append]
    have : exclusiveSuffix.any (fun c => c == '.') = true := by decide
    rw [this]
    simp

theorem excl_ne_lock : exclusiveSuffix ≠ lockSuffix := by decide

/-- Effect of one cleanup iteration on membership, flock mode: the
processed entry is removed exactly when its flock is not held and its
extension is `.lock` or `.exclusive`; no other file changes. -/
theorem cleanupStep_mem_flock {st : LockFS} (hmode : st.flockSupported = true)
    {e : Str} (he : e ∈ st.files) (g : Str) :
    (g ∈ (cleanupStep st e).files ↔
      (g ∈ st.files ∧ ¬(g = e ∧ e ∉ st.flockHeld ∧
        (fileExt e = lockSuffix ∨ fileExt e = exclusiveSuffix)))) := by
  by_cases hH : e ∈ st.flockHeld
  · have hacq : tryAcquireLock st e = none := by
      unfold tryAcquireLock
      rw [if_pos hmode, if_pos hH]
    simp only [cleanupStep, hacq]
    constructor
    · intro h
      exact ⟨h, by tauto⟩
    · exact fun h => h.1
  · have hins : insertFile st.files e = st.files := insertFile_of_mem he
    have hacq : tryAcquireLock st e
        = some ({ path := e }, { st with files := st.files }) := by
      unfold tryAcquireLock
      rw [if_pos hmode, if_neg hH, hins]
    simp only [cleanupStep, hacq, Release]
    by_cases hexcl : fileExt e = exclusiveSuffix
    · have hlock : ¬ fileExt e = lockSuffix := by
        rw [hexcl]
        exact excl_ne_lock
      rw [if_neg (by simp [hlock]), if_pos (by simp [hexcl])]
      simp only [mem_removeFile]
      constructor
      · intro h
        exact ⟨h.1, by tauto⟩
      · intro h
        refine ⟨h.1, ?_⟩
        intro hge
        exact absurd ⟨hge, hH, Or.inr hexcl⟩ h.2
    · by_cases hlock : fileExt e = lockSuffix
      · rw [if_pos (by simp [hlock]), if_neg (by simp [hexcl])]
        simp only [mem_removeFile]
        constructor
        · intro h
          exact ⟨h.1, by tauto⟩
        · intro h
          refine ⟨h.1, ?_⟩
          intro hge
          exact absurd ⟨hge, hH, Or.inl hlock⟩ h.2
      · rw [if_neg (by simp [hlock]), if_neg (by simp [hexcl])]
        constructor
        · intro h
          exact ⟨h, by tauto⟩
        · exact fun h => h.1

/-- Effect of one cleanup iteration on membership, fallback mode: the
processed entry is removed exactly when its token file is absent and
its extension is `.lock`; the transient `.exclusive` token is created
and deleted within the iteration, so no other file changes. -/
theorem cleanupStep_mem_fb {st : LockFS} (hmode : st.flockSupported = false)
    {e : Str} (he : e ∈ st.files) (g : Str) :
    (g ∈ (cleanupStep st e).files ↔
      (g ∈ st.files ∧ ¬(g = e ∧ (e ++ exclusiveSuffix) ∉ st.files ∧
        fileExt e = lockSuffix))) := by
  have hins : insertFile st.files e = st.files := insertFile_of_mem he
  by_cases hT : (e ++ exclusiveSuffix) ∈ st.files
  · have hacq : tryAcquireLock st e = none := by
      unfold tryAcquireLock
      rw [if_neg (by simp [hmode])]
      dsimp only
      rw [hins, if_pos hT]
    simp only [cleanupStep, hacq]
    constructor
    · intro h
      exact ⟨h, by tauto⟩
    · exact fun h => h.1
  · have hacq : tryAcquireLock st e
        = some ({ path := e ++ exclusiveSuffix },
                { st with files := insertFile st.files (e ++ exclusiveSuffix) }) := by
      unfold tryAcquireLock
      rw [if_neg (by simp [hmode])]
      dsimp only
      rw [hins, if_neg hT]
    have hinsT : insertFile st.files (e ++ exclusiveSuffix)
        = (e ++ exclusiveSuffix) :: st.files := by
      unfold insertFile
      exact if_neg hT
    simp only [cleanupStep, hacq, Release, fileExt_append_excl, beq_self_eq_true, if_pos]
    have hrel : removeFile ((e ++ exclusiveSuffix) :: st.files) (e ++ exclusiveSuffix)
        = st.files := by
      unfold removeFile
      rw [List.filter_cons, if_neg (by simp)]
      exact removeFile_of_not_mem hT
    rw [hinsT]
    by_cases hlock : fileExt e = lockSuffix
    · rw [if_pos (by simp [hlock])]
      simp only [hrel, mem_removeFile]
      constructor
      · intro h
        exact ⟨h.1, by tauto⟩
      · intro h
        refine ⟨h.1, ?_⟩
        intro hge
        exact absurd ⟨hge, hT, hlock⟩ h.2
    · rw [if_neg (by simp [hlock]), hrel]
      constructor
      · intro h
        exact ⟨h, by tauto⟩
      · exact fun h => h.1

/-- Folding the cleanup loop over distinct existing entries, flock
mode: a `.lock` file survives iff it was not among the entries or its
flock is held by a live process. -/
theorem cleanup_fold_flock {g : Str} (hg : fileExt g = lockSuffix) :
    ∀ (entries : List Str) (st : LockFS), st.flockSupported = true →
    entries.Nodup → (∀ e ∈ entries, e ∈ st.files) →
    (g ∈ (entries.foldl cleanupStep st).files ↔
      (g ∈ st.files ∧ (g ∈ entries → g ∈ st.flockHeld))) := by
  intro entries
  induction entries with
  | nil => intro st _ _ _; simp
  | cons e es ih =>
    intro st hmode hnd hsub
    have hpre := cleanupStep_preserve st e
    have he : e ∈ st.files := hsub e (by simp)
    have hstep := cleanupStep_mem_flock hmode he
    have hsub' : ∀ e' ∈ es, e' ∈ (cleanupStep st e).files := by
      intro e' he'
      rw [hstep e']
      refine ⟨hsub e' (by simp [he']), ?_⟩
      rintro ⟨rfl, -⟩
      exact (List.nodup_cons.mp hnd).1 he'
    rw [List.foldl_cons,
        ih (cleanupStep st e) (by rw [hpre.1]; exact hmode) (List.nodup_cons.mp hnd).2 hsub',
        hstep g, hpre.2.1]
    by_cases hge : g = e
    · subst hge
      simp only [List.mem_cons, true_or, hg, true_and, true_implies]
      by_cases hH : g ∈ st.flockHeld
      · simp [hH, he]
      · simp [hH, he]
    · simp only [List.mem_cons]
      constructor
      · rintro ⟨⟨h1, -⟩, h2⟩
        refine ⟨h1, ?_⟩
        rintro (h | h)
        · exact absurd h hge
        · exact h2 h
      · rintro ⟨h1, h2⟩
        exact ⟨⟨h1, by tauto⟩, fun h => h2 (Or.inr h)⟩

/-- Folding the cleanup loop over distinct existing entries, fallback
mode: a `.lock` file survives iff it was not among the entries or its
`.exclusive` token file exists. -/
theorem cleanup_fold_fb {g : Str} (hg : fileExt g = lockSuffix) :
    ∀ (entries : List Str) (st : LockFS), st.flockSupported = false →
    entries.Nodup → (∀ e ∈ entries, e ∈ st.files) →
    (g ∈ (entries.foldl cleanupStep st).files ↔
      (g ∈ st.files ∧ (g ∈ entries → (g ++ exclusiveSuffix) ∈ st.files))) := by
  intro entries
  induction entries with
  | nil => intro st _ _ _; simp
  | cons e es ih =>
    intro st hmode hnd hsub
    have hpre := cleanupStep_preserve st e
    have he : e ∈ st.files := hsub e (by simp)
    have hstep := cleanupStep_mem_fb hmode he
    have hsub' : ∀ e' ∈ es, e' ∈ (cleanupStep st e).files := by
      intro e' he'
      rw [hstep e']
      refine ⟨hsub e' (by simp [he']), ?_⟩
      rintro ⟨rfl, -⟩
      exact (List.nodup_cons.mp hnd).1 he'
    have htok : (g ++ exclusiveSuffix) ∈ (cleanupStep st e).files ↔
        (g ++ exclusiveSuffix) ∈ st.files := by
      rw [hstep (g ++ exclusiveSuffix)]
      constructor
      · exact fun h => h.1
      · intro h
        refine ⟨h, ?_⟩
        rintro ⟨heq, -, hle⟩
        rw [← heq, fileExt_append_excl] at hle
        exact excl_ne_lock hle
    rw [List.foldl_cons,
        ih (cleanupStep st e) (by rw [hpre.1]; exact hmode) (List.nodup_cons.mp hnd).2 hsub',
        hstep g, htok]
    by_cases hge : g = e
    · subst hge
      simp only [List.mem_cons, true_or, hg, true_and, true_implies, and_true]
      by_cases hT : (g ++ exclusiveSuffix) ∈ st.files
      · simp [hT, he]
      · simp [hT, he]
    · simp only [List.mem_cons]
      constructor
      · rintro ⟨⟨h1, -⟩, h2⟩
        refine ⟨h1, ?_⟩
        rintro (h | h)
        · exact absurd h hge
        · exact h2 h
      · rintro ⟨h1, h2⟩
        exact ⟨⟨h1, by tauto⟩, fun h => h2 (Or.inr h)⟩

end lock

/-- Claim C7 (amended). The maintenance sweep removes exactly the
abandoned locks among the primary `.lock` files: for every `.lock`
file in the locks directory, the sweep removes it if and only if its
acquisition attempt succeeds — in flock mode, iff no live process
holds its flock (so a live-held lock file is left untouched); in
fallback mode, iff its `.exclusive` token file is absent.  The claim's
further statement about fallback `.exclusive` token files is false and
is dropped: an acquisition attempt on a token file itself succeeds even
while its owner is alive, and in flock mode the sweep then deletes the
live token (see the counterexample). -/
theorem C7_cleanup_sweep (fs : lock.LockFS) (f : Str)
    (hnd : fs.files.Nodup) (hmem : f ∈ fs.files) (hext : lock.fileExt f = lock.lockSuffix) :
    (f ∉ (lock.Cleanup fs).files ↔ (lock.tryAcquireLock fs f).isSome = true) := by
  unfold lock.Cleanup
  cases hmode : fs.flockSupported
  · rw [lock.cleanup_fold_fb hext fs.files fs hmode hnd (fun _ h => h)]
    have hins : lock.insertFile fs.files f = fs.files := lock.insertFile_of_mem hmem
    unfold lock.tryAcquireLock
    rw [if_neg (by simp [hmode])]
    dsimp only
    rw [hins]
    by_cases hT : (f ++ lock.exclusiveSuffix) ∈ fs.files
    · rw [if_pos hT]
      simp [hmem, hT]
    · rw [if_neg hT]
      simp [hmem, hT]
  · rw [lock.cleanup_fold_flock hext fs.files fs hmode hnd (fun _ h => h)]
    unfold lock.tryAcquireLock
    rw [if_pos hmode]
    by_cases hH : f ∈ fs.flockHeld
    · rw [if_pos hH]
      simp [hmem, hH]
    · rw [if_neg hH]
      simp [hmem, hH]

/-- Witness for claim C7: a two-file directory in flock mode where
`a.lock` is abandoned and `b.lock` is held by a live process; the
theorem instantiates to: `a.lock` is removed (it is acquirable) and
`b.lock` is kept (its acquisition fails). -/
theorem C7_cleanup_sweep_witness :
    (("a.lock".data ∉ (lock.Cleanup
        { files := ["a.lock".data, "b.lock".data], flockHeld := ["b.lock".data],
          fallbackOwned := [], flockSupported := true }).files) ↔
      (lock.tryAcquireLock
        { files := ["a.lock".data, "b.lock".data], flockHeld := ["b.lock".data],
          fallbackOwned := [], flockSupported := true } "a.lock".data).isSome = true) ∧
    (("b.lock".data ∉ (lock.Cleanup
        { files := ["a.lock".data, "b.lock".data], flockHeld := ["b.lock".data],
          fallbackOwned := [], flockSupported := true }).files) ↔
      (lock.tryAcquireLock
        { files := ["a.lock".data, "b.lock".data], flockHeld := ["b.lock".data],
          fallbackOwned := [], flockSupported := true } "b.lock".data).isSome = true) := by
  constructor
  · exact C7_cleanup_sweep _ _ (by decide) (by decide) (by decide)
  · exact C7_cleanup_sweep _ _ (by decide) (by decide) (by decide)

/-- Claim C7, counterexample to the token-file half as stated: a
fallback-mode `.exclusive` token file whose owner is alive (it is
recorded in `fallbackOwned`) is nevertheless acquired by the sweep's
acquisition attempt, and on a flock-supporting filesystem the sweep
then deletes the live token from disk instead of leaving it untouched. -/
theorem C7_cleanup_sweep_cex :
    "t.lock.exclusive".data ∈ tokenFS.fallbackOwned ∧
    (lock.tryAcquireLock tokenFS "t.lock.exclusive".data).isSome = true ∧
    (lock.Cleanup tokenFS).files = [] := by
  exact ⟨by decide, by decide, by decide⟩

namespace lock

theorem step_inv {s : Sys} (h : Inv s) (e : Event) : Inv (step s e) := by
  intro q hq
  cases e with
  | tryAcq p =>
    unfold step at hq ⊢
    cases hp : s.pcs p with
    | trying =>
      cases hh : s.holder with
      | none =>
        simp only [hp, hh] at hq ⊢
        by_cases hqp : q = p
        · simp [hqp]
        · simp only [if_neg hqp] at hq
          exact absurd (h q hq) (by rw [hh]; simp)
      | some r =>
        simp only [hp, hh] at hq ⊢
        rw [← hh]
        exact h q hq
    | holding => simp only [hp] at hq ⊢; exact h q hq
    | released => simp only [hp] at hq ⊢; exact h q hq
    | timedOut => simp only [hp] at hq ⊢; exact h q hq
  | release p =>
    unfold step at hq ⊢
    cases hp : s.pcs p with
    | holding =>
      simp only [hp] at hq ⊢
      by_cases hqp : q = p
      · simp only [if_pos hqp] at hq
        exact absurd hq (by simp)
      · simp only [if_neg hqp] at hq
        have hq' := h q hq
        have hp' := h p hp
        rw [hq'] at hp'
        exact absurd (Option.some.inj hp') (fun hh => hqp hh)
    | trying => simp only [hp] at hq ⊢; exact h q hq
    | released => simp only [hp] at hq ⊢; exact h q hq
    | timedOut => simp only [hp] at hq ⊢; exact h q hq
  | timeout p =>
    unfold step at hq ⊢
    cases hp : s.pcs p with
    | trying =>
      simp only [hp] at hq ⊢
      by_cases hqp : q = p
      · simp only [if_pos hqp] at hq
        exact absurd hq (by simp)
      · simp only [if_neg hqp] at hq
        exact h q hq
    | holding => simp only [hp] at hq ⊢; exact h q hq
    | released => simp only [hp] at hq ⊢; exact h q hq
    | timedOut => simp only [hp] at hq ⊢; exact h q hq

theorem run_inv {s : Sys} (h : Inv s) : ∀ es : List Event, Inv (run s es) := by
  intro es
  induction es generalizing s with
  | nil => exact h
  | cons e es ih => exact ih (step_inv h e)

end lock

/-- Claim C9. Mutual exclusion of the named-lock protocol. Starting
from any state in which nobody holds the lock, after any interleaving
of try/release/timeout events: (i) at most one process is in the
`holding` state at any time; (ii) a `tryAcquireLock` call finding the
flock free succeeds immediately, making the caller the holder; (iii) a
`tryAcquireLock` call while some process holds the flock changes
nothing — the caller remains in the retry loop and can succeed only
after the holder's release (or time out). -/
theorem C9_mutual_exclusion :
    (∀ (s0 : lock.Sys) (es : List lock.Event),
      (∀ p, s0.pcs p ≠ .holding) → s0.holder = none →
      ∀ p q, (lock.run s0 es).pcs p = .holding → (lock.run s0 es).pcs q = .holding → p = q) ∧
    (∀ (s : lock.Sys) (p : Nat), s.pcs p = .trying → s.holder = none →
      (lock.step s (.tryAcq p)).pcs p = .holding ∧ (lock.step s (.tryAcq p)).holder = some p) ∧
    (∀ (s : lock.Sys) (p h : Nat), s.pcs p = .trying → s.holder = some h →
      lock.step s (.tryAcq p) = s) := by
  refine ⟨?_, ?_, ?_⟩
  · intro s0 es h0 hh0 p q hp hq
    have hinv : lock.Inv (lock.run s0 es) := by
      refine lock.run_inv ?_ es
      intro r hr
      exact absurd hr (h0 r)
    have h1 := hinv p hp
    have h2 := hinv q hq
    rw [h1] at h2
    exact Option.some.inj h2
  · intro s p hp hh
    unfold lock.step
    simp [hp, hh]
  · intro s p h hp hh
    unfold lock.step
    simp [hp, hh]

/-- Witness for claim C9: two processes both trying; process 0's try
succeeds immediately, after which only process 0 can be holding. -/
theorem C9_mutual_exclusion_witness :
    (lock.run { pcs := fun _ => .trying, holder := none }
        [lock.Event.tryAcq 0, lock.Event.tryAcq 1]).pcs 0 = .holding ∧
    (0 : Nat) = 0 ∧
    (lock.step { pcs := fun _ => .trying, holder := none }
        (.tryAcq 0)).holder = some 0 := by
  refine ⟨by rfl, ?_, ?_⟩
  · exact C9_mutual_exclusion.1 { pcs := fun _ => .trying, holder := none }
      [lock.Event.tryAcq 0, lock.Event.tryAcq 1]
      (fun _ => by simp) rfl 0 0 (by rfl) (by rfl)
  · exact (C9_mutual_exclusion.2.1 { pcs := fun _ => .trying, holder := none } 0 rfl rfl).2

namespace commands

theorem prStep_mem {opts : HandoffOpts} {env : HandoffEnv} {a : Action}
    (h : a ∈ (prStep opts env).2) : a = .prCreate := by
  unfold prStep at h
  repeat' split at h
  all_goals simp_all

theorem prStep_no_save (opts : HandoffOpts) (env : HandoffEnv) (t' : task.Task) :
    (Action.storeSave t' ∈ (prStep opts env).2) = False := by
  simp only [eq_iff_iff, iff_false]
  intro h
  have := prStep_mem h
  simp at this

theorem prStep_no_taskacq (opts : HandoffOpts) (env : HandoffEnv) (id : Str) :
    (Action.acquireTask id ∈ (prStep opts env).2) = False := by
  simp only [eq_iff_iff, iff_false]
  intro h
  have := prStep_mem h
  simp at this

theorem prStep_no_chdir (opts : HandoffOpts) (env : HandoffEnv) (p : Path) :
    (Action.chdir p ∈ (prStep opts env).2) = False := by
  simp only [eq_iff_iff, iff_false]
  intro h
  have := prStep_mem h
  simp at this

theorem prStep_no_remove (opts : HandoffOpts) (env : HandoffEnv) (p : Path) :
    (Action.worktreeRemove p ∈ (prStep opts env).2) = False := by
  simp only [eq_iff_iff, iff_false]
  intro h
  have := prStep_mem h
  simp at this

theorem retire_mem {opts : HandoffOpts} {env : HandoffEnv} {a : Action}
    (h : a ∈ (retireWorktree opts env).2) :
    a = .chdir env.repoRoot ∨ a = .acquireGlobal ∨ a = .worktreeRemove env.wtPath := by
  simp only [retireWorktree] at h
  by_cases hk : opts.keepWorktree = true
  · rw [if_pos hk] at h
    simp at h
  · rw [if_neg hk] at h
    by_cases h1 : (isInsideWorktree env.wtPath env.cwd && !opts.forceRemove) = true
    · rw [if_pos h1] at h
      simp at h
    · rw [if_neg h1] at h
      have hpre : ∀ b : Action,
          b ∈ (if (isInsideWorktree env.wtPath env.cwd && opts.forceRemove) = true
                then [Action.chdir env.repoRoot] else ([] : List Action)) →
          b = Action.chdir env.repoRoot := by
        intro b hb
        split at hb
        · simpa using hb
        · simp at hb
      by_cases hl : (!env.lockOk) = true
      · rw [if_pos hl] at h
        simp only [List.mem_append, List.mem_cons, List.not_mem_nil, or_false] at h
        rcases h with h | h
        · exact Or.inl (hpre a h)
        · exact Or.inr (Or.inl h)
      · rw [if_neg hl] at h
        by_cases hrm : (!env.removeOk) = true
        · rw [if_pos hrm] at h
          simp only [List.mem_append, List.mem_cons, List.not_mem_nil, or_false] at h
          rcases h with h | h | h
          · exact Or.inl (hpre a h)
          · exact Or.inr (Or.inl h)
          · exact Or.inr (Or.inr h)
        · rw [if_neg hrm] at h
          simp only [List.mem_append, List.mem_cons, List.not_mem_nil, or_false] at h
          rcases h with h | h | h
          · exact Or.inl (hpre a h)
          · exact Or.inr (Or.inl h)
          · exact Or.inr (Or.inr h)

theorem retire_no_save (opts : HandoffOpts) (env : HandoffEnv) (t' : task.Task) :
    (Action.storeSave t' ∈ (retireWorktree opts env).2) = False := by
  simp only [eq_iff_iff, iff_false]
  intro h
  rcases retire_mem h with h | h | h <;> simp_all

theorem retire_no_taskacq (opts : HandoffOpts) (env : HandoffEnv) (id : Str) :
    (Action.acquireTask id ∈ (retireWorktree opts env).2) = False := by
  simp only [eq_iff_iff, iff_false]
  intro h
  rcases retire_mem h with h | h | h <;> simp_all

theorem retire_keep {opts : HandoffOpts} {env : HandoffEnv}
    (h : opts.keepWorktree = true) : retireWorktree opts env = (.ok true, []) := by
  unfold retireWorktree
  rw [if_pos h]

theorem retire_inside_noforce {opts : HandoffOpts} {env : HandoffEnv}
    (hk : opts.keepWorktree = false)
    (hin : isInsideWorktree env.wtPath env.cwd = true)
    (hf : opts.forceRemove = false) : retireWorktree opts env = (.ok true, []) := by
  unfold retireWorktree
  rw [if_neg (by simp [hk]), if_pos (by simp [hin, hf])]

theorem retire_ok_of_locks {opts : HandoffOpts} {env : HandoffEnv}
    (hl : env.lockOk = true) (hr : env.removeOk = true) :
    ∃ kept, (retireWorktree opts env).1 = Except.ok kept := by
  simp only [retireWorktree]
  by_cases hk : opts.keepWorktree = true
  · rw [if_pos hk]
    exact ⟨true, rfl⟩
  · rw [if_neg hk]
    by_cases h1 : (isInsideWorktree env.wtPath env.cwd && !opts.forceRemove) = true
    · rw [if_pos h1]
      exact ⟨true, rfl⟩
    · rw [if_neg h1, if_neg (by simp [hl]), if_neg (by simp [hr])]
      exact ⟨false, rfl⟩

theorem retire_forced {opts : HandoffOpts} {env : HandoffEnv} {kept : Bool}
    (hk : opts.keepWorktree = false)
    (hin : isInsideWorktree env.wtPath env.cwd = true)
    (hf : opts.forceRemove = true)
    (hok : (retireWorktree opts env).1 = .ok kept) :
    kept = false ∧ (retireWorktree opts env).2
      = [.chdir env.repoRoot, .acquireGlobal, .worktreeRemove env.wtPath] := by
  simp only [retireWorktree] at hok ⊢
  rw [if_neg (by simp [hk]), if_neg (by simp [hf])] at hok ⊢
  by_cases hl : env.lockOk = true
  · rw [if_neg (by simp [hl])] at hok ⊢
    by_cases hrm : env.removeOk = true
    · rw [if_neg (by simp [hrm])] at hok ⊢
      simp only at hok
      rw [if_pos (by simp [hin, hf])]
      refine ⟨?_, by simp⟩
      exact (Except.ok.inj hok).symm
    · rw [if_pos (by simp [hrm])] at hok
      simp at hok
  · rw [if_pos (by simp [hl])] at hok
    simp at hok

/-- Branch decomposition of a handoff run: either it fails with some
error and the stored record is untouched, or it reaches the single
final save, whose trace appends the retirement actions and the save to
a prefix that contains no directory change and no worktree removal. -/
theorem run_decomp (t : task.Task) (opts : HandoffOpts) (env : HandoffEnv) :
    (∃ e tr, runTaskHandoff t opts env = ⟨.error e, t, tr⟩) ∨
    (∃ kept prURL pre,
      (retireWorktree opts env).1 = .ok kept ∧
      (∀ p, Action.chdir p ∉ pre) ∧ (∀ p, Action.worktreeRemove p ∉ pre) ∧
      (∀ t', Action.storeSave t' ∉ pre) ∧
      runTaskHandoff t opts env =
        ⟨.ok { taskID := t.id, branch := t.branch, pushed := opts.push,
               prURL := prURL, worktreeKept := kept },
          { (if prURL.isEmpty then t else { t with prURL := prURL }) with
              state := task.StateHandoffReady },
          pre ++ ((retireWorktree opts env).2 ++
            [.storeSave { (if prURL.isEmpty then t else { t with prURL := prURL }) with
              state := task.StateHandoffReady }])⟩) := by
  simp only [runTaskHandoff]
  by_cases hc1 : ((env.rebaseResult.exitCode != 0) &&
      (strContains env.rebaseResult.stderr "conflict".data ||
       strContains env.rebaseResult.stdout "conflict".data)) = true
  · rw [if_pos hc1]
    exact Or.inl ⟨_, _, rfl⟩
  · rw [if_neg hc1]
    by_cases hc2 : (opts.push && !env.pushOk) = true
    · rw [if_pos hc2]
      exact Or.inl ⟨_, _, rfl⟩
    · rw [if_neg hc2]
      cases hpr : (prStep opts env).1 with
      | error e =>
        exact Or.inl ⟨_, _, rfl⟩
      | ok prURL =>
        dsimp only
        by_cases hdet : (!env.detachOk) = true
        · rw [if_pos hdet]
          exact Or.inl ⟨_, _, rfl⟩
        · rw [if_neg hdet]
          cases hret : (retireWorktree opts env).1 with
          | error e =>
            exact Or.inl ⟨_, _, rfl⟩
          | ok kept =>
            dsimp only
            by_cases hsave : (!env.saveOk) = true
            · rw [if_pos hsave]
              exact Or.inl ⟨_, _, rfl⟩
            · rw [if_neg hsave]
              refine Or.inr ⟨kept, prURL,
                [Action.gitStatus, Action.gitRebase t.base] ++
                  (if opts.push then [Action.gitPush t.branch] else []) ++
                  (prStep opts env).2 ++ [Action.gitDetach],
                rfl, ?_, ?_, ?_, ?_⟩
              · intro p
                simp [prStep_no_chdir]
              · intro p
                simp [prStep_no_remove]
              · intro t'
                simp [prStep_no_save]
              · simp

theorem savesIn_append (l1 l2 : List Action) :
    savesIn (l1 ++ l2) = savesIn l1 ++ savesIn l2 := by
  simp [savesIn]

theorem savesIn_prStep (opts : HandoffOpts) (env : HandoffEnv) :
    savesIn (prStep opts env).2 = [] := by
  rw [savesIn, List.filterMap_eq_nil_iff]
  intro a ha
  rw [prStep_mem ha]
  rfl

theorem savesIn_retire (opts : HandoffOpts) (env : HandoffEnv) :
    savesIn (retireWorktree opts env).2 = [] := by
  rw [savesIn, List.filterMap_eq_nil_iff]
  intro a ha
  rcases retire_mem ha with h | h | h <;> rw [h] <;> rfl

theorem savesIn_dropLast_nil {tr : List Action} (h : savesIn tr = []) :
    savesIn tr.dropLast = [] := by
  have hsub : List.Sublist (savesIn tr.dropLast) (savesIn tr) :=
    List.Sublist.filterMap saveOf (List.dropLast_sublist tr)
  rw [h] at hsub
  exact List.sublist_nil.mp hsub

theorem run_no_taskacq (t : task.Task) (opts : HandoffOpts) (env : HandoffEnv) (id : Str) :
    Action.acquireTask id ∉ (runTaskHandoff t opts env).trace := by
  simp only [runTaskHandoff]
  by_cases hc1 : ((env.rebaseResult.exitCode != 0) &&
      (strContains env.rebaseResult.stderr "conflict".data ||
       strContains env.rebaseResult.stdout "conflict".data)) = true
  · rw [if_pos hc1]
    simp
  · rw [if_neg hc1]
    by_cases hc2 : (opts.push && !env.pushOk) = true
    · rw [if_pos hc2]
      simp
    · rw [if_neg hc2]
      cases hpr : (prStep opts env).1 with
      | error e =>
        dsimp only
        simp [prStep_no_taskacq]
      | ok prURL =>
        dsimp only
        by_cases hdet : (!env.detachOk) = true
        · rw [if_pos hdet]
          simp [prStep_no_taskacq]
        · rw [if_neg hdet]
          cases hret : (retireWorktree opts env).1 with
          | error e =>
            dsimp only
            simp [prStep_no_taskacq, retire_no_taskacq]
          | ok kept =>
            dsimp only
            by_cases hsave : (!env.saveOk) = true
            · rw [if_pos hsave]
              simp [prStep_no_taskacq, retire_no_taskacq]
            · rw [if_neg hsave]
              simp [prStep_no_taskacq, retire_no_taskacq]

end commands

/-- Claim C1. The handoff pipeline's task-record writes and the
per-task lock: no handoff run ever performs an `acquireTask` effect —
`LockManager.AcquireTask` has no caller in the command pipelines — yet
a successful handoff run does write the mutable fields, persisting the
record with `state = HANDOFF_READY` (concretely evaluated on an ACTIVE
task with every external step succeeding), so the final persist is not
performed under the per-task lock. -/
theorem C1_per_task_lock_gap :
    (∀ (t : task.Task) (opts : commands.HandoffOpts) (env : commands.HandoffEnv) (id : Str),
      commands.Action.acquireTask id ∉ (commands.runTaskHandoff t opts env).trace) ∧
    ((commands.runTaskHandoff commands.sampleTask commands.optsPlain commands.envAllOk).result =
        .ok { taskID := commands.sampleTask.id, branch := commands.sampleTask.branch,
              pushed := false, prURL := [], worktreeKept := false } ∧
     (commands.runTaskHandoff commands.sampleTask commands.optsPlain
         commands.envAllOk).storeAfter.state = task.StateHandoffReady ∧
     commands.Action.storeSave (commands.runTaskHandoff commands.sampleTask commands.optsPlain
         commands.envAllOk).storeAfter
       ∈ (commands.runTaskHandoff commands.sampleTask commands.optsPlain
           commands.envAllOk).trace) := by
  exact ⟨commands.run_no_taskacq, by decide⟩

namespace commands

theorem savesIn_pushOpt (c : Prop) [Decidable c] (b : Str) :
    savesIn (if c then [Action.gitPush b] else []) = [] := by
  split <;> rfl

theorem dropLast_append_one (l : List Action) (a : Action) : (l ++ [a]).dropLast = l := by
  simp

theorem getLast_append_one (l : List Action) (a : Action) : (l ++ [a]).getLast? = some a := by
  simp

end commands

/-- Claim C3. Persistence granularity of the handoff pipeline: the
trace of every handoff run contains no store write before its final
element — the intermediate step results (push, PR URL) are carried in
memory only — and a run that succeeds ends with exactly one store
write, the final element of its trace, which persists the record with
`state = HANDOFF_READY` and an unchanged `lastCommit`. -/
theorem C3_single_final_save (t : task.Task) (opts : commands.HandoffOpts)
    (env : commands.HandoffEnv) :
    commands.savesIn (commands.runTaskHandoff t opts env).trace.dropLast = [] ∧
    ((commands.runTaskHandoff t opts env).result.isOk = true →
      (commands.runTaskHandoff t opts env).trace.getLast? =
        some (.storeSave (commands.runTaskHandoff t opts env).storeAfter) ∧
      (commands.runTaskHandoff t opts env).storeAfter.state = task.StateHandoffReady ∧
      (commands.runTaskHandoff t opts env).storeAfter.lastCommit = t.lastCommit) := by
  open commands in
  simp only [commands.runTaskHandoff]
  by_cases hc1 : ((env.rebaseResult.exitCode != 0) &&
      (strContains env.rebaseResult.stderr "conflict".data ||
       strContains env.rebaseResult.stdout "conflict".data)) = true
  · rw [if_pos hc1]
    exact ⟨by simp [commands.savesIn, commands.saveOf], by simp [Except.isOk, Except.toBool]⟩
  · rw [if_neg hc1]
    by_cases hc2 : (opts.push && !env.pushOk) = true
    · rw [if_pos hc2]
      exact ⟨by simp [commands.savesIn, commands.saveOf], by simp [Except.isOk, Except.toBool]⟩
    · rw [if_neg hc2]
      cases hpr : (commands.prStep opts env).1 with
      | error e =>
        dsimp only
        refine ⟨commands.savesIn_dropLast_nil ?_, by simp [Except.isOk, Except.toBool]⟩
        simp [commands.savesIn_append, commands.savesIn_prStep, commands.savesIn_pushOpt,
          commands.savesIn, commands.saveOf]
        intro a ha
        rw [commands.prStep_mem ha]
      | ok prURL =>
        dsimp only
        by_cases hdet : (!env.detachOk) = true
        · rw [if_pos hdet]
          refine ⟨commands.savesIn_dropLast_nil ?_, by simp [Except.isOk, Except.toBool]⟩
          simp [commands.savesIn_append, commands.savesIn_prStep, commands.savesIn_pushOpt,
            commands.savesIn, commands.saveOf]
          intro a ha
          rw [commands.prStep_mem ha]
        · rw [if_neg hdet]
          cases hret : (commands.retireWorktree opts env).1 with
          | error e =>
            dsimp only
            refine ⟨commands.savesIn_dropLast_nil ?_, by simp [Except.isOk, Except.toBool]⟩
            simp [commands.savesIn_append, commands.savesIn_prStep, commands.savesIn_retire,
              commands.savesIn_pushOpt, commands.savesIn, commands.saveOf]
            refine ⟨fun a ha => ?_, fun a ha => ?_⟩
            · rw [commands.prStep_mem ha]
            · rcases commands.retire_mem ha with h | h | h <;> rw [h]
          | ok kept =>
            dsimp only
            by_cases hsave : (!env.saveOk) = true
            · rw [if_pos hsave]
              refine ⟨?_, by simp [Except.isOk, Except.toBool]⟩
              rw [show ([Action.gitStatus, Action.gitRebase t.base] ++
                    (if opts.push then [Action.gitPush t.branch] else []) ++
                    (commands.prStep opts env).2 ++ [Action.gitDetach] ++
                    (commands.retireWorktree opts env).2 ++
                    [Action.storeSave { (if prURL.isEmpty then t
                        else { t with prURL := prURL }) with
                          state := task.StateHandoffReady }]).dropLast =
                  [Action.gitStatus, Action.gitRebase t.base] ++
                    (if opts.push then [Action.gitPush t.branch] else []) ++
                    (commands.prStep opts env).2 ++ [Action.gitDetach] ++
                    (commands.retireWorktree opts env).2
                from commands.dropLast_append_one _ _]
              simp [commands.savesIn_append, commands.savesIn_prStep, commands.savesIn_retire,
                commands.savesIn_pushOpt, commands.savesIn, commands.saveOf]
              refine ⟨fun a ha => ?_, fun a ha => ?_⟩
              · rw [commands.prStep_mem ha]
              · rcases commands.retire_mem ha with h | h | h <;> rw [h]
            · rw [if_neg hsave]
              refine ⟨?_, fun _ => ⟨?_, ?_, ?_⟩⟩
              · rw [commands.dropLast_append_one]
                simp [commands.savesIn_append, commands.savesIn_prStep,
                  commands.savesIn_retire, commands.savesIn_pushOpt,
                  commands.savesIn, commands.saveOf]
                refine ⟨fun a ha => ?_, fun a ha => ?_⟩
                · rw [commands.prStep_mem ha]
                · rcases commands.retire_mem ha with h | h | h <;> rw [h]
              · rw [commands.getLast_append_one]
              · rfl
              · dsimp only
                split <;> rfl

/-- Counterexample for claim C3: a handoff run with `--push
--create-pr` in which the sync, the push and the PR creation all
succeed performs no store write after any of those steps — its only
store write is the very last action of the run — and the same run
interrupted at the final save (save fails) leaves the stored record
exactly the original ACTIVE one, reflecting neither the push nor the
PR URL, contradicting per-step persistence of partial results. -/
theorem C3_single_final_save_cex :
    (commands.runTaskHandoff commands.sampleTask commands.optsPushPR commands.envAllOk).result =
      .ok { taskID := commands.sampleTask.id, branch := commands.sampleTask.branch,
            pushed := true, prURL := "https://example.com/pr/1".data,
            worktreeKept := false } ∧
    (commands.runTaskHandoff commands.sampleTask commands.optsPushPR commands.envAllOk).trace =
      [.gitStatus, .gitRebase commands.sampleTask.base,
       .gitPush commands.sampleTask.branch, .prCreate, .gitDetach, .acquireGlobal,
       .worktreeRemove commands.envAllOk.wtPath,
       .storeSave (commands.runTaskHandoff commands.sampleTask commands.optsPushPR
           commands.envAllOk).storeAfter] ∧
    commands.savesIn ((commands.runTaskHandoff commands.sampleTask commands.optsPushPR
        commands.envAllOk).trace.take 7) = [] ∧
    (commands.runTaskHandoff commands.sampleTask commands.optsPushPR
        commands.envSaveFail).storeAfter = commands.sampleTask := by
  decide

/-- Claim C5. Failure modes of the review-request step: after a
successful push, a PR command that is present but fails (nonzero exit)
only degrades to a warning — the run continues, completes, and
persists `state = HANDOFF_READY` with an empty PR URL; but when
neither `gh` nor `glab` is available the run aborts hard with the
tool-missing error before detaching, leaving the stored record
untouched. -/
theorem C5_review_request_modes (t : task.Task) (opts : commands.HandoffOpts)
    (env : commands.HandoffEnv)
    (hp : opts.push = true) (hcpr : opts.createPR = true)
    (hsync : ((env.rebaseResult.exitCode != 0) &&
      (strContains env.rebaseResult.stderr "conflict".data ||
       strContains env.rebaseResult.stdout "conflict".data)) = false)
    (hpush : env.pushOk = true) :
    ((env.ghAvailable || env.glabAvailable) = true → env.prResult.exitCode ≠ 0 →
      env.detachOk = true → env.lockOk = true → env.removeOk = true → env.saveOk = true →
      (∃ kept, (commands.runTaskHandoff t opts env).result =
        .ok { taskID := t.id, branch := t.branch, pushed := true, prURL := [],
              worktreeKept := kept }) ∧
      (commands.runTaskHandoff t opts env).storeAfter =
        { t with state := task.StateHandoffReady }) ∧
    (env.ghAvailable = false → env.glabAvailable = false →
      (commands.runTaskHandoff t opts env).result = .error .toolMissing ∧
      (commands.runTaskHandoff t opts env).storeAfter = t ∧
      commands.Action.gitDetach ∉ (commands.runTaskHandoff t opts env).trace) := by
  constructor
  · intro htool hfail hdet hlock hrm hsaveOk
    have hpr : commands.prStep opts env = (.ok [], [.prCreate]) := by
      simp only [commands.prStep]
      rw [if_neg (by simp [hcpr]), if_neg (by simp [hp]),
          if_neg (by cases hg : env.ghAvailable <;> cases hgl : env.glabAvailable <;>
            simp_all),
          if_pos (by simp [bne_iff_ne.mpr hfail])]
    obtain ⟨kept, hkept⟩ := @commands.retire_ok_of_locks opts env hlock hrm
    simp only [commands.runTaskHandoff]
    rw [if_neg (by simp [hsync]), if_neg (by simp [hp, hpush]), hpr]
    dsimp only
    rw [if_neg (by simp [hdet]), hkept]
    dsimp only
    rw [if_neg (by simp [hsaveOk])]
    refine ⟨⟨kept, ?_⟩, ?_⟩
    · rw [hp]
    · rfl
  · intro hgh hglab
    have hpr : commands.prStep opts env = (.error .toolMissing, []) := by
      simp only [commands.prStep]
      rw [if_neg (by simp [hcpr]), if_neg (by simp [hp]), if_pos (by simp [hgh, hglab])]
    simp only [commands.runTaskHandoff]
    rw [if_neg (by simp [hsync]), if_neg (by simp [hp, hpush]), hpr]
    dsimp only
    refine ⟨rfl, rfl, ?_⟩
    simp [hp]

/-- Witness for claim C5 at concrete inputs: with `gh` installed and
the PR command exiting 1, the run still persists `HANDOFF_READY`; with
no PR tool installed, the run aborts with the tool-missing error. -/
theorem C5_review_request_modes_witness :
    (commands.runTaskHandoff commands.sampleTask commands.optsPushPR
        commands.envPRFail).storeAfter =
      { commands.sampleTask with state := task.StateHandoffReady } ∧
    (commands.runTaskHandoff commands.sampleTask commands.optsPushPR
        commands.envNoTool).result = .error .toolMissing :=
  ⟨((C5_review_request_modes commands.sampleTask commands.optsPushPR commands.envPRFail
      rfl rfl (by decide) rfl).1 (by decide) (by decide) rfl rfl rfl rfl).2,
   ((C5_review_request_modes commands.sampleTask commands.optsPushPR commands.envNoTool
      rfl rfl (by decide) rfl).2 rfl rfl).1⟩

/-- Counterexample for claim C5: with `--push --create-pr`, a clean
sync, and a successful push, the absence of both `gh` and `glab` does
not degrade to a warning — the run aborts with the tool-missing error
before the detach step, the record stays ACTIVE, and no store write
happens at all. -/
theorem C5_review_request_modes_cex :
    (commands.runTaskHandoff commands.sampleTask commands.optsPushPR
        commands.envNoTool).result = .error .toolMissing ∧
    (commands.runTaskHandoff commands.sampleTask commands.optsPushPR
        commands.envNoTool).storeAfter.state = task.StateActive ∧
    commands.Action.gitDetach ∉ (commands.runTaskHandoff commands.sampleTask
        commands.optsPushPR commands.envNoTool).trace ∧
    commands.savesIn (commands.runTaskHandoff commands.sampleTask commands.optsPushPR
        commands.envNoTool).trace = [] := by
  decide

namespace commands

theorem run_remove_mem {t : task.Task} {opts : HandoffOpts} {env : HandoffEnv} {p : Path}
    (h : Action.worktreeRemove p ∈ (runTaskHandoff t opts env).trace) :
    Action.worktreeRemove p ∈ (retireWorktree opts env).2 := by
  simp only [runTaskHandoff] at h
  by_cases hc1 : ((env.rebaseResult.exitCode != 0) &&
      (strContains env.rebaseResult.stderr "conflict".data ||
       strContains env.rebaseResult.stdout "conflict".data)) = true
  · rw [if_pos hc1] at h
    simp at h
  · rw [if_neg hc1] at h
    by_cases hc2 : (opts.push && !env.pushOk) = true
    · rw [if_pos hc2] at h
      simp at h
    · rw [if_neg hc2] at h
      cases hpr : (prStep opts env).1 with
      | error e =>
        rw [hpr] at h
        try dsimp only at h
        simp [prStep_no_remove] at h
      | ok prURL =>
        rw [hpr] at h
        try dsimp only at h
        by_cases hdet : (!env.detachOk) = true
        · rw [if_pos hdet] at h
          simp [prStep_no_remove] at h
        · rw [if_neg hdet] at h
          cases hret : (retireWorktree opts env).1 with
          | error e =>
            rw [hret] at h
            try dsimp only at h
            simp only [List.mem_append, List.mem_cons, List.not_mem_nil,
              prStep_no_remove, or_false, false_or] at h
            simp at h
            exact h
          | ok kept =>
            rw [hret] at h
            try dsimp only at h
            by_cases hsave : (!env.saveOk) = true
            · rw [if_pos hsave] at h
              simp [prStep_no_remove] at h
              exact h
            · rw [if_neg hsave] at h
              simp [prStep_no_remove] at h
              exact h

theorem run_chdir_mem {t : task.Task} {opts : HandoffOpts} {env : HandoffEnv} {p : Path}
    (h : Action.chdir p ∈ (runTaskHandoff t opts env).trace) :
    Action.chdir p ∈ (retireWorktree opts env).2 := by
  simp only [runTaskHandoff] at h
  by_cases hc1 : ((env.rebaseResult.exitCode != 0) &&
      (strContains env.rebaseResult.stderr "conflict".data ||
       strContains env.rebaseResult.stdout "conflict".data)) = true
  · rw [if_pos hc1] at h
    simp at h
  · rw [if_neg hc1] at h
    by_cases hc2 : (opts.push && !env.pushOk) = true
    · rw [if_pos hc2] at h
      simp at h
    · rw [if_neg hc2] at h
      cases hpr : (prStep opts env).1 with
      | error e =>
        rw [hpr] at h
        try dsimp only at h
        simp [prStep_no_chdir] at h
      | ok prURL =>
        rw [hpr] at h
        try dsimp only at h
        by_cases hdet : (!env.detachOk) = true
        · rw [if_pos hdet] at h
          simp [prStep_no_chdir] at h
        · rw [if_neg hdet] at h
          cases hret : (retireWorktree opts env).1 with
          | error e =>
            rw [hret] at h
            try dsimp only at h
            simp [prStep_no_chdir] at h
            exact h
          | ok kept =>
            rw [hret] at h
            try dsimp only at h
            by_cases hsave : (!env.saveOk) = true
            · rw [if_pos hsave] at h
              simp [prStep_no_chdir] at h
              exact h
            · rw [if_neg hsave] at h
              simp [prStep_no_chdir] at h
              exact h

end commands

/-- Claim C8. CWD safety of worktree retirement during handoff: when
the process's working directory is inside the target worktree and
`--keep-worktree` is not set, a run without `--force-remove` never
performs a worktree removal and, if it succeeds, reports the worktree
as kept; a successful run with `--force-remove` reports it as removed
and its trace changes directory to the repository root immediately
before taking the global lock and removing the worktree, with no
earlier directory change. -/
theorem C8_cwd_safety (t : task.Task) (opts : commands.HandoffOpts)
    (env : commands.HandoffEnv)
    (hk : opts.keepWorktree = false)
    (hin : commands.isInsideWorktree env.wtPath env.cwd = true) :
    (opts.forceRemove = false →
      (∀ p, commands.Action.worktreeRemove p ∉ (commands.runTaskHandoff t opts env).trace) ∧
      (∀ r, (commands.runTaskHandoff t opts env).result = .ok r →
        r.worktreeKept = true)) ∧
    (opts.forceRemove = true →
      ∀ r, (commands.runTaskHandoff t opts env).result = .ok r →
        r.worktreeKept = false ∧
        ∃ l1 l2, (commands.runTaskHandoff t opts env).trace =
          l1 ++ commands.Action.chdir env.repoRoot :: commands.Action.acquireGlobal ::
            commands.Action.worktreeRemove env.wtPath :: l2 ∧
          (∀ p, commands.Action.chdir p ∉ l1)) := by
  constructor
  · intro hf
    have hret := @commands.retire_inside_noforce opts env hk hin hf
    constructor
    · intro p hmem
      have h2 := commands.run_remove_mem hmem
      rw [hret] at h2
      simp at h2
    · intro r hres
      rcases commands.run_decomp t opts env with ⟨e, tr, heq⟩ |
        ⟨kept, prURL, pre, hok, hnc, hnr, hns, heq⟩
      · rw [heq] at hres
        exact absurd hres (by simp)
      · rw [heq] at hres
        rw [hret] at hok
        have hkept : true = kept := Except.ok.inj hok
        have hr := Except.ok.inj hres
        rw [← hr]
        exact hkept.symm
  · intro hf r hres
    rcases commands.run_decomp t opts env with ⟨e, tr, heq⟩ |
      ⟨kept, prURL, pre, hok, hnc, hnr, hns, heq⟩
    · rw [heq] at hres
      exact absurd hres (by simp)
    · obtain ⟨hkept, hact⟩ := commands.retire_forced hk hin hf hok
      rw [heq] at hres
      have hr := Except.ok.inj hres
      constructor
      · rw [← hr]
        exact hkept
      · refine ⟨pre, [commands.Action.storeSave
          { (if prURL.isEmpty then t else { t with prURL := prURL }) with
              state := task.StateHandoffReady }], ?_, hnc⟩
        rw [heq]
        dsimp only
        rw [hact]
        simp

/-- Witness for claim C8 at concrete inputs: with the working
directory inside the worktree and no override, the concrete run
removes nothing and succeeds reporting the worktree kept. -/
theorem C8_cwd_safety_witness :
    commands.Action.worktreeRemove commands.envInside.wtPath
      ∉ (commands.runTaskHandoff commands.sampleTask commands.optsPlain
          commands.envInside).trace ∧
    ({ taskID := commands.sampleTask.id, branch := commands.sampleTask.branch,
       pushed := false, prURL := [], worktreeKept := true } :
         commands.HandoffResult).worktreeKept = true :=
  ⟨((C8_cwd_safety commands.sampleTask commands.optsPlain commands.envInside
      rfl (by decide)).1 rfl).1 commands.envInside.wtPath,
   ((C8_cwd_safety commands.sampleTask commands.optsPlain commands.envInside
      rfl (by decide)).1 rfl).2 _ (by decide)⟩

namespace commands

theorem start_outcomes (opts : StartOpts) (env : StartEnv) :
    (∃ e, e ≠ SErr.caseOnlyCollision ∧
      runTaskStart opts env = ⟨.error e, env.branches, [], none⟩) ∨
    (∃ b wt, env.saveOk = false ∧ runTaskStart opts env =
      ⟨.error .saveFailed, env.branches ++ [b],
        if env.removeOk = true then [] else [wt], none⟩) ∨
    (∃ i b wt, env.saveOk = true ∧ runTaskStart opts env =
      ⟨.ok (i, b, wt), env.branches ++ [b], [wt],
        some { id := i, agent := opts.agent, title := opts.title, branch := b,
               base := opts.base, createdAt := env.now, state := task.StateActive,
               worktreePath := wt, lastCommit := [], prURL := [] }⟩) := by
  simp only [runTaskStart]
  by_cases h1 : (!safety.ValidateAgentName opts.agent) = true
  · rw [if_pos h1]
    exact Or.inl ⟨_, by simp, rfl⟩
  · rw [if_neg h1]
    by_cases h2 : (!safety.ValidateTaskTitle opts.title) = true
    · rw [if_pos h2]
      exact Or.inl ⟨_, by simp, rfl⟩
    · rw [if_neg h2]
      by_cases h3 : (!env.repoOk) = true
      · rw [if_pos h3]
        exact Or.inl ⟨_, by simp, rfl⟩
      · rw [if_neg h3]
        by_cases h4 : (!env.lockOk) = true
        · rw [if_pos h4]
          exact Or.inl ⟨_, by simp, rfl⟩
        · rw [if_neg h4]
          cases hid : (if opts.id.isEmpty then
              (if env.genOk then Except.ok env.genId else Except.error SErr.genFailed)
            else if !idgen.ValidateTaskID opts.id then Except.error SErr.invalidTaskID
            else Except.ok opts.id) with
          | error e =>
            have hne : e ≠ SErr.caseOnlyCollision := by
              revert hid
              split
              · split
                · intro h
                  simp at h
                · intro h
                  rw [Except.error.injEq] at h
                  rw [← h]
                  simp
              · split
                · intro h
                  rw [Except.error.injEq] at h
                  rw [← h]
                  simp
                · intro h
                  simp at h
            exact Or.inl ⟨e, hne, rfl⟩
          | ok taskID =>
            dsimp only
            by_cases h5 : (!safety.ValidateBranchName
                (idgen.GenerateBranchName opts.branchPref opts.agent taskID)) = true
            · rw [if_pos h5]
              exact Or.inl ⟨_, by simp, rfl⟩
            · rw [if_neg h5]
              by_cases h6 : (!env.pathOk) = true
              · rw [if_pos h6]
                exact Or.inl ⟨_, by simp, rfl⟩
              · rw [if_neg h6]
                by_cases h7 : env.branches.contains
                    (idgen.GenerateBranchName opts.branchPref opts.agent taskID) = true
                · rw [if_pos h7]
                  exact Or.inl ⟨_, by simp, rfl⟩
                · rw [if_neg h7]
                  by_cases h8 : env.checkedOut = true
                  · rw [if_pos h8]
                    exact Or.inl ⟨_, by simp, rfl⟩
                  · rw [if_neg h8]
                    by_cases h9 : (!env.worktreeAddOk) = true
                    · rw [if_pos h9]
                      exact Or.inl ⟨_, by simp, rfl⟩
                    · rw [if_neg h9]
                      by_cases h10 : (!env.saveOk) = true
                      · rw [if_pos h10]
                        exact Or.inr (Or.inl ⟨_, _, by simpa using h10, rfl⟩)
                      · rw [if_neg h10]
                        exact Or.inr (Or.inr ⟨_, _, _, by simpa using h10, rfl⟩)

end commands

/-- Claim C10, amended. Atomicity of `task start` with respect to the
task record, conditioned on the compensating removal succeeding —
`runTaskStart` ignores the removal's own error, so the unconditional
claim fails (see the counterexample): when the compensating removal
succeeds, a run whose stored record is absent leaves no worktree of
its own behind; a run in which the record save fails never reports
success; and a successful run stores exactly one ACTIVE record whose
worktree path is the one worktree the run created. -/
theorem C10_start_atomic (opts : commands.StartOpts) (env : commands.StartEnv) :
    (env.removeOk = true → (commands.runTaskStart opts env).record = none →
      (commands.runTaskStart opts env).worktreesAfter = []) ∧
    (env.saveOk = false → ∀ res, (commands.runTaskStart opts env).result ≠ .ok res) ∧
    (∀ res, (commands.runTaskStart opts env).result = .ok res →
      ∃ tk, (commands.runTaskStart opts env).record = some tk ∧
        tk.state = task.StateActive ∧
        (commands.runTaskStart opts env).worktreesAfter = [tk.worktreePath]) := by
  rcases commands.start_outcomes opts env with ⟨e, hne, heq⟩ |
    ⟨b, wt, hsv, heq⟩ | ⟨i, b, wt, hsv, heq⟩
  · refine ⟨fun _ _ => by rw [heq], fun _ res h => ?_, fun res h => ?_⟩
    · rw [heq] at h
      simp at h
    · rw [heq] at h
      simp at h
  · refine ⟨fun hrm _ => ?_, fun _ res h => ?_, fun res h => ?_⟩
    · rw [heq]
      dsimp only
      rw [if_pos hrm]
    · rw [heq] at h
      simp at h
    · rw [heq] at h
      simp at h
  · refine ⟨fun _ hnone => ?_, fun hs res h => ?_, fun res h => ?_⟩
    · rw [heq] at hnone
      simp at hnone
    · rw [hs] at hsv
      simp at hsv
    · rw [heq]
      exact ⟨_, rfl, rfl, rfl⟩

/-- Claim C4. Absence of the case-only collision guard in `task
start`: no run of the pipeline can return the `CASE_ONLY_COLLISION`
error that `internal/errors` defines, and concretely, starting a task
with id `Feature-X` while the branch `awt/claude/feature-x` already
exists succeeds, creating the branch `awt/claude/Feature-X`, although
the two names differ only by case (their case-folded forms are equal
while the names are not byte-identical). -/
theorem C4_case_only_collision :
    (∀ (opts : commands.StartOpts) (env : commands.StartEnv),
      (commands.runTaskStart opts env).result ≠ .error .caseOnlyCollision) ∧
    ((commands.runTaskStart commands.startOptsCase commands.startEnvCase).result =
      .ok ("Feature-X".data, "awt/claude/Feature-X".data,
           commands.startWorktreePath commands.startEnvCase.root "Feature-X".data) ∧
     "awt/claude/feature-x".data ∈
       (commands.runTaskStart commands.startOptsCase commands.startEnvCase).branchesAfter ∧
     "awt/claude/Feature-X".data ∈
       (commands.runTaskStart commands.startOptsCase commands.startEnvCase).branchesAfter ∧
     List.map idgen.goToLower "awt/claude/Feature-X".data =
       List.map idgen.goToLower "awt/claude/feature-x".data ∧
     "awt/claude/Feature-X".data ≠ "awt/claude/feature-x".data) := by
  constructor
  · intro opts env h
    rcases commands.start_outcomes opts env with ⟨e, hne, heq⟩ |
      ⟨b, wt, hsv, heq⟩ | ⟨i, b, wt, hsv, heq⟩
    · rw [heq] at h
      exact hne (Except.error.inj h)
    · rw [heq] at h
      simp at h
    · rw [heq] at h
      simp at h
  · refine ⟨by decide, by decide, by decide, by decide, by decide⟩
/-- Counterexample for claim C10 as originally stated: a `task start`
run in which every step up to and including worktree creation
succeeds, the record save then fails, and the compensating worktree
removal — whose error the code discards — also fails, ends with the
created worktree still on disk and no task record stored, so a run of
`task start` can end with a created worktree whose ACTIVE record is
absent. -/
theorem C10_start_atomic_cex :
    (commands.runTaskStart commands.startOptsCase commands.startEnvDoubleFail).result =
      .error .saveFailed ∧
    (commands.runTaskStart commands.startOptsCase commands.startEnvDoubleFail).record =
      none ∧
    (commands.runTaskStart commands.startOptsCase
        commands.startEnvDoubleFail).worktreesAfter =
      [commands.startWorktreePath commands.startEnvDoubleFail.root "Feature-X".data] ∧
    "awt/claude/Feature-X".data ∈
      (commands.runTaskStart commands.startOptsCase
        commands.startEnvDoubleFail).branchesAfter := by
  decide
